import Mathlib

/-!
Shallow embedding of the core of the `Search-Engine` repository
(tokenizer, query engine with semantic expansion, trie autocomplete,
semantic model, barrel partitioner and incremental indexer), together with
theorems settling the specification claims about it.

Conventions used throughout the embedding:
* JavaScript strings are modelled as `List Char` (`Str`).
* JavaScript numbers that hold word ids, positions and field codes are
  modelled as `Nat`; scores (which mix integers with `0.5` factors and a
  `/100` proximity bonus) are modelled exactly as rationals (`ℚ`).
* JavaScript objects and `Map`s used as dictionaries are modelled as
  association lists in insertion order.  `Map.set` / property assignment
  updates the value in place when the key exists and appends otherwise
  (`jsUpsert`); object spread `{...a, ...b}` is `jsMerge`.
* `Array.prototype.sort` is stable in JavaScript (TimSort).  A stable sort
  for a total preorder has a unique result, so each sort is modelled with the
  stable, structurally recursive `List.insertionSort` over the total preorder
  its comparator realizes.
* JS truthiness tests on ids are modelled explicitly (`jsStr`, `truthyId`).
-/

set_option maxRecDepth 100000

set_option allowUnsafeReducibility true

attribute [semireducible] Rat.add Rat.sub Rat.neg Rat.mul Rat.inv Rat.div Rat.blt Rat.normalize

namespace SE

/-- JavaScript strings. -/
abbrev Str := List Char

/-- `Map.set k v` / `obj[k] = v`: replace the value at `k` in place if present,
otherwise append `(k, v)`. -/
def jsUpsert {K V : Type} [BEq K] : List (K × V) → K → V → List (K × V)
  | [], k, v => [(k, v)]
  | (k', v') :: rest, k, v =>
      if k' == k then (k', v) :: rest else (k', v') :: jsUpsert rest k v

/-- Object spread `{...a, ...b}`: keys of `a` in order with values overridden
by `b`, then the new keys of `b` appended in `b`'s order. -/
def jsMerge {K V : Type} [BEq K] (a b : List (K × V)) : List (K × V) :=
  b.foldl (fun m kv => jsUpsert m kv.1 kv.2) a

/-- `Set.add` over a list, with the elements already seen accumulated:
elements already in `seen` are skipped. -/
def dedupFirstAux {α : Type} [DecidableEq α] : List α → List α → List α
  | _, [] => []
  | seen, a :: l =>
      if a ∈ seen then dedupFirstAux seen l else a :: dedupFirstAux (a :: seen) l

/-- `Set` built from a list: keeps the first occurrence of each element,
in insertion order (JS `Set` semantics). -/
def dedupFirst {α : Type} [DecidableEq α] (l : List α) : List α :=
  dedupFirstAux [] l

/-- JS truthiness of a string-valued field: `undefined` and `""` are falsy. -/
def jsStr : Option Str → Option Str
  | some [] => none
  | x => x

/-- JS truthiness of a numeric word id: `undefined` and `0` are falsy.
(Word ids are allocated densely from `1`, so the `0` case is unreachable in
states produced by the pipeline.) -/
def truthyId : Option Nat → Option Nat
  | some 0 => none
  | x => x

/-- `x || d` on string values. -/
def jsOr (o : Option Str) (d : Str) : Str := (jsStr o).getD d

/-! ## Tokenizer (shared by `searchEngine.js` and the indexing scripts)

`TOKEN_REGEX = /[a-z]+/g` over the lowercased input: maximal runs of
lowercase ASCII letters. -/

/-- `String.prototype.toLowerCase`, restricted to the per-character lowering
relevant for ASCII input. -/
def jsToLower (s : Str) : Str := s.map Char.toLower

/-- Is `c` a lowercase ASCII letter (matched by `[a-z]`)? -/
def isLowerAlpha (c : Char) : Bool := 'a' ≤ c && c ≤ 'z'

/-- Scanner for `/[a-z]+/g`: `run` is the (possibly empty) run of `[a-z]`
characters read so far; a non-matching character flushes it. -/
def matchRunsAux : List Char → Str → List Str
  | [], run => if run.isEmpty then [] else [run]
  | c :: cs, run =>
      if isLowerAlpha c then matchRunsAux cs (run ++ [c])
      else if run.isEmpty then matchRunsAux cs []
      else run :: matchRunsAux cs []

/-- `s.match(/[a-z]+/g)`: the maximal runs of `[a-z]` characters in `s`
(`null`, i.e. no match, is modelled as `[]`). -/
def matchRuns (s : Str) : List Str := matchRunsAux s []

/-- `STOP_WORDS` (identical in every script of the repository). -/
def STOP_WORDS : List Str :=
  ["a", "an", "and", "are", "as", "at", "be", "but", "by", "for", "if", "in", "is", "it",
   "no", "not", "of", "on", "or", "such", "that", "the", "their", "then", "there",
   "these", "they", "this", "to", "was", "will", "with", "from", "which", "can", "we",
   "i", "my", "your", "its", "all", "our"].map String.toList

/-- `MIN_TOKEN_LENGTH` / `MIN_WORD_LENGTH`. -/
def MIN_TOKEN_LENGTH : Nat := 3

/-- `NUM_BARRELS`. -/
def NUM_BARRELS : Nat := 64

/-- `tokenizeQuery` (searchEngine.js): lowercase, extract `[a-z]+` runs, keep
tokens of length `≥ 3` that are not stop words. -/
def tokenizeQuery (query : Str) : List Str :=
  (matchRuns (jsToLower query)).filter
    (fun t => decide (MIN_TOKEN_LENGTH ≤ t.length) && !(STOP_WORDS.contains t))

/-! ## Query engine data model (searchEngine.js, semantic variant) -/

/-- A hit: position and field code (`{ pos, type }`). -/
structure Hit where
  pos : Nat
  type : Nat
deriving DecidableEq, Repr

/-- A posting: `{ docId, hits }`. -/
structure Posting where
  docId : Str
  hits : List Hit
deriving DecidableEq, Repr

/-- A posting copy carrying the `isExact` flag attached during group building
(`{ ...posting, isExact }`). -/
structure ScoredPosting where
  docId : Str
  hits : List Hit
  isExact : Bool
deriving DecidableEq, Repr

/-- The parsed `lexicon.json`: token → word id, in key order. -/
abbrev Lexicon := List (Str × Nat)

/-- The parsed content of one `barrel_<i>.json`: word id → posting list.
(JSON object keys are the decimal strings of the word ids; they are modelled
directly as `Nat`.) -/
abbrev BarrelFile := List (Nat × List Posting)

/-- The barrel directory: shard index → file content.  A shard index absent
from the list is a missing file (`loadBarrel` treats it as empty). -/
abbrev Barrels := List (Nat × BarrelFile)

/-- `FIELD_WEIGHTS[t] || 0`. -/
def FIELD_WEIGHTS (t : Nat) : ℚ :=
  match t with
  | 1 => 5
  | 2 => 1
  | 3 => 3
  | 4 => 1
  | 5 => 1
  | _ => 0

/-- `getBarrelIndex`. -/
def getBarrelIndex (wordId : Nat) : Nat := wordId % NUM_BARRELS

/-- `loadBarrel`: the file for the shard, or empty when missing. -/
def loadBarrel (barrels : Barrels) (idx : Nat) : BarrelFile :=
  (barrels.lookup idx).getD []

/-- `vocabulary[word]` with the JS truthiness test `if (id)`. -/
def vocabId (voc : Lexicon) (w : Str) : Option Nat := truthyId (voc.lookup w)

/-- `calculateSingleWordScore`: sum of field weights over the posting's hits. -/
def calculateSingleWordScore (p : ScoredPosting) : ℚ :=
  p.hits.foldl (fun s h => s + FIELD_WEIGHTS h.type) 0

/-- `MAX_SPAN` of `calculateProximityBonus`. -/
def MAX_SPAN : ℚ := 500

/-- `calculateProximityBonus`: collect all hit positions across the doc's
postings, sort, `span = last - first`, bonus `max(0, 500 - min(span, 500)) / 100`. -/
def calculateProximityBonus (docPostings : List ScoredPosting) : ℚ :=
  let allPositions := docPostings.flatMap (fun p => p.hits.map (·.pos))
  if allPositions.isEmpty then 0
  else
    let sorted := allPositions.insertionSort (· ≤ ·)
    let span : ℚ := (sorted.getLast?.getD 0 : Nat) - (sorted.headD 0 : Nat)
    max 0 (MAX_SPAN - min span MAX_SPAN) / 100

/-- `getQueryGroups`: one group per query token, the token itself first and
then its synonyms (`Set` semantics: first occurrences, insertion order).
The synonym function stands for `semanticModel.findSynonyms` of the loaded
model. -/
def getQueryGroups (syn : Str → List Str) (tokens : List Str) : List (List Str) :=
  tokens.map (fun t => dedupFirst (t :: syn t))

/-- Word ids of all group members present (truthy) in the vocabulary, in
group-then-member order (step 2 of `executeSearch`). -/
def allWordIdsOf (voc : Lexicon) (groups : List (List Str)) : List Nat :=
  groups.flatMap (fun g => g.filterMap (vocabId voc))

/-- The inner loop of step 3 of `executeSearch`: for each needed word id,
record the loaded barrel's posting list for that id if the barrel has it. -/
def loadFromBarrel (barrels : Barrels) (idx : Nat) (ids : List Nat)
    (acc : List (Nat × List Posting)) : List (Nat × List Posting) :=
  ids.foldl
    (fun acc2 id =>
      match (loadBarrel barrels idx).lookup id with
      | some ps => jsUpsert acc2 id ps
      | none => acc2)
    acc

/-- Step 3 of `executeSearch`: for each barrel to load (in first-use order),
for each needed word id, record the barrel's posting list for that id if the
barrel has it (later finds overwrite earlier ones, as in the JS loop). -/
def buildLoaded (barrels : Barrels) (toLoad : List Nat) (ids : List Nat) :
    List (Nat × List Posting) :=
  toLoad.foldl (fun acc idx => loadFromBarrel barrels idx ids acc) []

/-- The innermost assignment of step 4: enter the posting for its document,
with `isExact = (word == queryTokens[i])`, overwriting only a synonym-match
entry with an exact-match one. -/
def addGroupPosting (queryTok w : Str) (m2 : List (Str × ScoredPosting))
    (p : Posting) : List (Str × ScoredPosting) :=
  let sp : ScoredPosting := ⟨p.docId, p.hits, w == queryTok⟩
  match m2.lookup p.docId with
  | none => jsUpsert m2 p.docId sp
  | some existing =>
      if sp.isExact && !existing.isExact then jsUpsert m2 p.docId sp
      else m2

/-- The per-word step of step 4: look the word up in the vocabulary, fetch its
loaded posting list if any, and enter all its postings. -/
def groupWordStep (voc : Lexicon) (loaded : List (Nat × List Posting))
    (queryTok : Str) (m : List (Str × ScoredPosting)) (w : Str) :
    List (Str × ScoredPosting) :=
  match vocabId voc w with
  | none => m
  | some id =>
      match loaded.lookup id with
      | none => m
      | some ps => ps.foldl (addGroupPosting queryTok w) m

/-- Step 4 of `executeSearch` for one group: map docId → posting flagged with
`isExact = (word == queryTokens[i])`, preferring an exact-match posting over a
synonym-match posting, otherwise keeping the first one seen. -/
def buildGroupMap (voc : Lexicon) (loaded : List (Nat × List Posting))
    (queryTok : Str) (group : List Str) : List (Str × ScoredPosting) :=
  group.foldl (groupWordStep voc loaded queryTok) []

/-- One intersection step (step 5): keep the docs of `cand` that are also in
`next`, appending `next`'s posting for the doc to the doc's posting list.
(In the JS code the map values start as single postings and become arrays as
the fold proceeds, discriminated with `Array.isArray`; the values are modelled
uniformly as lists, with singleton lists for the initial group.) -/
def intersectStep (cand : List (Str × List ScoredPosting))
    (next : List (Str × ScoredPosting)) : List (Str × List ScoredPosting) :=
  cand.foldl
    (fun acc dp =>
      match next.lookup dp.1 with
      | some p2 => acc ++ [(dp.1, dp.2 ++ [p2])]
      | none => acc)
    []

/-- The intersection fold of step 5, with the early `break` when an
intermediate intersection is empty. -/
def intersectRest (cand : List (Str × List ScoredPosting)) :
    List (List (Str × ScoredPosting)) → List (Str × List ScoredPosting)
  | [] => cand
  | g :: gs =>
      let inter := intersectStep cand g
      if inter.isEmpty then inter else intersectRest inter gs

/-- Step 5: fold by intersection, starting from the first (smallest) group,
whose single postings become singleton lists. -/
def intersectAll : List (List (Str × ScoredPosting)) → List (Str × List ScoredPosting)
  | [] => []
  | g0 :: rest => intersectRest (g0.map (fun dp => (dp.1, [dp.2]))) rest

/-- Step 6, per document: the total score
(base · (1 or 0.5) summed over postings, plus the proximity bonus when the doc
has more than one surviving posting). -/
def totalScoreOf (ps : List ScoredPosting) : ℚ :=
  let base :=
    ps.foldl
      (fun acc p =>
        acc + (if p.isExact then calculateSingleWordScore p
               else calculateSingleWordScore p * (1 / 2)))
      0
  if 1 < ps.length then base + calculateProximityBonus ps else base

/-- A raw (pre-enrichment) result row of `executeSearch`. -/
structure RawResult where
  docId : Str
  score : ℚ
  wordCount : Nat
  matchType : Str
deriving DecidableEq, Repr

/-- The comparator `(a, b) => b.score - a.score` of the final result sort, as
the total preorder it realizes: `a` may come before `b` iff `b.score ≤ a.score`.
(JS `Array.prototype.sort` is stable; a stable sort for a total preorder is
unique, so the structural `List.insertionSort` models it faithfully.) -/
def scoreDescRel (a b : RawResult) : Prop := b.score ≤ a.score

instance : DecidableRel scoreDescRel :=
  fun a b => inferInstanceAs (Decidable (b.score ≤ a.score))

instance : IsTotal RawResult scoreDescRel :=
  ⟨fun a b => le_total b.score a.score⟩

instance : IsTrans RawResult scoreDescRel :=
  ⟨fun _ _ _ h1 h2 => le_trans h2 h1⟩

/-- The comparator `(a, b) => a.size - b.size` of the group-map sort (total
preorder form). -/
def sizeAscRel (a b : List (Str × ScoredPosting)) : Prop := a.length ≤ b.length

instance : DecidableRel sizeAscRel :=
  fun a b => inferInstanceAs (Decidable (a.length ≤ b.length))

instance : IsTotal (List (Str × ScoredPosting)) sizeAscRel :=
  ⟨fun a b => Nat.le_total a.length b.length⟩

instance : IsTrans (List (Str × ScoredPosting)) sizeAscRel :=
  ⟨fun _ _ _ h1 h2 => le_trans h1 h2⟩

/-- The value of `executeSearch`.  The `time` and debug `expandedTokens` fields
are not modelled.  The two early returns of the source omit the `totalResults`
property (it reads back as `undefined`), which is modelled as `none`. -/
structure ExecOut where
  results : List RawResult
  tokens : List Str
  totalResults : Option Nat
deriving DecidableEq, Repr

/-- Step 6: build the per-document rows from the intersected candidates. -/
def rawResultsOf (queryTokens : List Str) (cand : List (Str × List ScoredPosting)) :
    List RawResult :=
  cand.map (fun dp =>
    let ps := dp.2
    ⟨dp.1, totalScoreOf ps, ps.length,
     if ps.countP (·.isExact) = queryTokens.length then "Exact".toList
     else "Semantic".toList⟩)

/-- The sorted group maps of steps 4-5 (sorted by ascending size; JS sort is
stable). -/
def groupDocsOf (voc : Lexicon) (barrels : Barrels) (syn : Str → List Str)
    (queryTokens : List Str) : List (List (Str × ScoredPosting)) :=
  let termGroups := getQueryGroups syn queryTokens
  let allWordIds := allWordIdsOf voc termGroups
  let toLoad := dedupFirst (allWordIds.map getBarrelIndex)
  let loaded := buildLoaded barrels toLoad allWordIds
  (queryTokens.zip termGroups).map (fun tg => buildGroupMap voc loaded tg.1 tg.2)

/-- The final intersected candidate map of step 5. -/
def candidatesOf (voc : Lexicon) (barrels : Barrels) (syn : Str → List Str)
    (queryTokens : List Str) : List (Str × List ScoredPosting) :=
  intersectAll ((groupDocsOf voc barrels syn queryTokens).insertionSort sizeAscRel)

/-- `executeSearch` (semantic variant). -/
def executeSearch (voc : Lexicon) (barrels : Barrels) (syn : Str → List Str)
    (query : Str) : ExecOut :=
  let queryTokens := tokenizeQuery query
  if queryTokens.isEmpty then ⟨[], [], none⟩
  else
    let termGroups := getQueryGroups syn queryTokens
    if (allWordIdsOf voc termGroups).isEmpty then ⟨[], queryTokens, none⟩
    else if (groupDocsOf voc barrels syn queryTokens).isEmpty then ⟨[], queryTokens, none⟩
    else
      let results :=
        (rawResultsOf queryTokens (candidatesOf voc barrels syn queryTokens)).insertionSort
          scoreDescRel
      ⟨results, queryTokens, some results.length⟩

/-! ## `search` wrapper: initialization check, pagination, enrichment -/

/-- A record of `docStore.json`: `{ title, authors, categories }` (each field
may be absent). -/
structure DocRecord where
  title : Option Str
  authors : Option Str
  categories : Option Str
deriving DecidableEq, Repr

/-- The parsed `docStore.json`: docId → record, in key order. -/
abbrev DocStore := List (Str × DocRecord)

/-- A result row returned by `search`: the raw ranking data, merged with the
doc-store metadata when the document is found there (fields stay `none` —
absent — otherwise). -/
structure EnrichedResult where
  docId : Str
  score : ℚ
  wordCount : Nat
  matchType : Str
  title : Option Str
  authors : Option Str
  categories : Option Str
deriving DecidableEq, Repr

/-- Enrichment of one raw row (`search`, the `map` over the page). -/
def enrichResult (ds : DocStore) (r : RawResult) : EnrichedResult :=
  match ds.lookup r.docId with
  | some m => ⟨r.docId, r.score, r.wordCount, r.matchType, m.title, m.authors, m.categories⟩
  | none => ⟨r.docId, r.score, r.wordCount, r.matchType, none, none, none⟩

/-- The value of `search`. -/
structure SearchOut where
  results : List EnrichedResult
  tokens : List Str
  page : Nat
  limit : Nat
  totalResults : Option Nat
  hasMore : Bool
deriving DecidableEq, Repr

/-- The body of `search` after the initialization check: run `executeSearch`,
slice `[(page-1)*limit, page*limit)`, enrich the page with doc-store metadata.
(The arithmetic is faithful for `page ≥ 1`, the range the service is called
with; JS would use negative indices for `page = 0`.) -/
def searchRun (voc : Lexicon) (ds : DocStore) (barrels : Barrels)
    (syn : Str → List Str) (query : Str) (page limit : Nat) : SearchOut :=
  let er := executeSearch voc barrels syn query
  let startIdx := (page - 1) * limit
  let endIdx := startIdx + limit
  let pageRaw := (er.results.drop startIdx).take limit
  ⟨pageRaw.map (enrichResult ds), er.tokens, page, limit, er.totalResults,
   decide (endIdx < er.results.length)⟩

/-- The serving-process engine state relevant to `search`: the lazily loaded
lexicon and doc store (absent before `initialize` / on load failure). -/
structure EngineState where
  vocabulary : Option Lexicon
  docStore : Option DocStore
  barrels : Barrels

/-- `search` (module export): throws when the lexicon or the doc store is not
loaded, otherwise pure. -/
def search (st : EngineState) (syn : Str → List Str) (query : Str)
    (page limit : Nat) : Except Str SearchOut :=
  match st.vocabulary, st.docStore with
  | some voc, some ds => .ok (searchRun voc ds st.barrels syn query page limit)
  | _, _ => .error ("Search engine not initialized or Doc Store failed to load.".toList)

/-! ## Trie (trie.js)

`TrieNode` has a `Map` of children (insertion order, unique keys) and an
end-of-word flag.  `collectWords` iterates the children in sorted key order,
so with unique keys it visits the child entries sorted by key
(`sortChildren`). -/

/-- A trie node: children in insertion order, plus the end-of-word flag. -/
inductive TrieNode where
  | mk (children : List (Char × TrieNode)) (isEnd : Bool)

/-- The children list of a node. -/
def TrieNode.children : TrieNode → List (Char × TrieNode)
  | .mk ch _ => ch

/-- The end-of-word flag of a node. -/
def TrieNode.isEnd : TrieNode → Bool
  | .mk _ e => e

/-- `new TrieNode()`. -/
def emptyNode : TrieNode := .mk [] false

/-- `Trie.insert`: walk the word, creating missing children (appended in
insertion order), and mark the final node as end-of-word. -/
def TrieNode.insert : TrieNode → Str → TrieNode
  | .mk ch _, [] => .mk ch true
  | .mk ch e, c :: cs =>
      .mk (jsUpsert ch c (((ch.lookup c).getD emptyNode).insert cs)) e

/-- Key order on child entries. -/
def childKeyRel (a b : Char × TrieNode) : Prop := a.1 ≤ b.1

instance : DecidableRel childKeyRel :=
  fun a b => inferInstanceAs (Decidable (a.1 ≤ b.1))

instance : IsTotal (Char × TrieNode) childKeyRel :=
  ⟨fun a b => le_total a.1 b.1⟩

instance : IsTrans (Char × TrieNode) childKeyRel :=
  ⟨fun _ _ _ h1 h2 => le_trans h1 h2⟩

/-- The children visited in sorted key order
(`Array.from(node.children.keys()).sort()`, then `children.get(char)`; with
the unique keys of a JS `Map` this is the entry list sorted by key). -/
def sortChildren (l : List (Char × TrieNode)) : List (Char × TrieNode) :=
  l.insertionSort childKeyRel

/-- Subterm bound used for recursion over the nested `TrieNode` type. -/
theorem sizeOf_lt_of_mem_children {c : Char} {t' : TrieNode}
    {ch : List (Char × TrieNode)} {e : Bool} (h : (c, t') ∈ ch) :
    sizeOf t' < sizeOf (TrieNode.mk ch e) := by
  have h1 : sizeOf (c, t') < sizeOf ch := List.sizeOf_lt_of_mem h
  have h2 : sizeOf t' < sizeOf (c, t') := by
    simp only [Prod.mk.sizeOf_spec]
    omega
  simp only [TrieNode.mk.sizeOf_spec]
  omega

/-- Subterm bound through `sortChildren`. -/
theorem sizeOf_lt_of_mem_sortChildren {c : Char} {t' : TrieNode}
    {ch : List (Char × TrieNode)} {e : Bool} (h : (c, t') ∈ sortChildren ch) :
    sizeOf t' < sizeOf (TrieNode.mk ch e) :=
  sizeOf_lt_of_mem_children ((List.mem_insertionSort childKeyRel).mp h)

/-- `Trie.collectWords`: depth-first collection of the words below a node, the
node's own word first, then the children in sorted key order, stopping as soon
as `maxResults` words have been collected. -/
def collectWords (t : TrieNode) (pfx : Str) (acc : List Str) (maxResults : Nat) :
    List Str :=
  if maxResults ≤ acc.length then acc
  else
    let acc1 := if t.isEnd then acc ++ [pfx] else acc
    (sortChildren t.children).attach.foldl
      (fun a cp => collectWords cp.1.2 (pfx ++ [cp.1.1]) a maxResults) acc1
termination_by sizeOf t
decreasing_by
  obtain ⟨⟨c, t'⟩, hmem⟩ := cp
  cases t with
  | mk ch e => exact sizeOf_lt_of_mem_sortChildren hmem

/-- `Trie.searchNode`: follow the characters of the given string, `null` when a
child is missing. -/
def TrieNode.searchNode : TrieNode → Str → Option TrieNode
  | t, [] => some t
  | t, c :: cs =>
      match t.children.lookup c with
      | none => none
      | some t' => t'.searchNode cs

/-- `Trie.autocomplete`. -/
def TrieNode.autocompleteT (t : TrieNode) (pfx : Str) (limit : Nat) : List Str :=
  match t.searchNode pfx with
  | none => []
  | some n => collectWords n pfx [] limit

/-- The trie built from the lexicon keys (`initializeTrie`). -/
def buildTrie (words : List Str) : TrieNode :=
  words.foldl (fun t w => t.insert w) emptyNode

/-! ## Engine-level autocomplete (searchEngine.js `autocomplete`) -/

/-- `MAX_AUTOCOMPLETE_SUGGESTIONS`. -/
def MAX_AUTOCOMPLETE_SUGGESTIONS : Nat := 10

/-- Split at the last space (`lastIndexOf(' ')`): returns
`(base, pfx)` where `base` is everything up to and including the last space
(empty when there is none) and `pfx` is the rest. -/
def splitLastSpace : Str → Str × Str
  | [] => ([], [])
  | c :: cs =>
      if ' ' ∈ cs then
        ((c :: (splitLastSpace cs).1), (splitLastSpace cs).2)
      else if c = ' ' then ([' '], cs)
      else ([], c :: cs)

/-- The engine's `autocomplete`: lowercase the query, split at the last space,
return no suggestions for an empty final word, otherwise autocomplete the
final word in the trie built from the lexicon keys (limit 10), drop
suggestions shorter than `MIN_TOKEN_LENGTH`, and prepend the base query. -/
def engineAutocomplete (voc : Lexicon) (query : Str) : List Str :=
  let nq := jsToLower query
  let bp := splitLastSpace nq
  if bp.2.isEmpty then []
  else
    (((buildTrie (voc.map (·.1))).autocompleteT bp.2 MAX_AUTOCOMPLETE_SUGGESTIONS).filter
      (fun w => decide (MIN_TOKEN_LENGTH ≤ w.length))).map (bp.1 ++ ·)

/-- Canonical enumeration of the words stored below a node, in depth-first
sorted-children order (proof device for `collectWords`). -/
def enumT (t : TrieNode) : List Str :=
  (if t.isEnd then [([] : Str)] else []) ++
  (sortChildren t.children).attach.flatMap
    (fun cp => (enumT cp.1.2).map (cp.1.1 :: ·))
termination_by sizeOf t
decreasing_by
  obtain ⟨⟨c, t'⟩, hmem⟩ := cp
  cases t with
  | mk ch e => exact sizeOf_lt_of_mem_sortChildren hmem

/-- Does the trie contain this word? -/
def TrieNode.containsWord (t : TrieNode) (w : Str) : Bool :=
  match t.searchNode w with
  | some n => n.isEnd
  | none => false

/-- Well-formedness of a trie: every node's children have pairwise distinct
keys (the keys of a JS `Map`). -/
inductive TrieWF : TrieNode → Prop where
  | mk : ∀ ch e, (ch.map (·.1)).Nodup → (∀ p ∈ ch, TrieWF p.2) →
      TrieWF (.mk ch e)

/-! ## Semantic model (semanticModel.js)

Vectors are modelled with rational entries.  `cosineSimilarity` divides the
dot product by the product of the Euclidean norms; since the norms are square
roots, similarity values are compared through the strictly monotone map
`x ↦ x·|x|` instead: `simScore vA vB = cos·|cos| = dot·|dot| / (nA·nB)` where
`nA, nB` are the squared norms.  Every comparison the source performs on
similarities (the `≥ SIMILARITY_THRESHOLD` filter and the descending sort) is
performed here on the transformed values, with the threshold transformed to
`0.65·|0.65| = 169/400`, which yields exactly the same outcomes. -/

/-- Squared-norm-based stand-in for `cosineSimilarity`:
`cos·|cos|`, with the source's `0` result when either norm is zero. -/
def simScore (vA vB : List ℚ) : ℚ :=
  let d := ((vA.zip vB).map (fun ab => ab.1 * ab.2)).sum
  let nA := ((vA.zip vB).map (fun ab => ab.1 * ab.1)).sum
  let nB := ((vA.zip vB).map (fun ab => ab.2 * ab.2)).sum
  if nA = 0 ∨ nB = 0 then 0 else d * |d| / (nA * nB)

/-- `SIMILARITY_THRESHOLD = 0.65`, transformed by `x ↦ x·|x|`. -/
def SIM_THRESHOLD_SQ : ℚ := 169 / 400

/-- `MAX_SYNONYMS`. -/
def MAX_SYNONYMS : Nat := 3

/-- The loaded `SemanticModel`: `vectors` (word → vector) and `vocab` (the
loaded words, in file order). -/
structure SemanticModel where
  vectors : List (Str × List ℚ)
  vocab : List Str
  isLoaded : Bool

/-- One step of the candidate loop of `findSynonyms`: skip the input word,
keep a word whose similarity reaches the threshold. -/
def synStep (M : SemanticModel) (inputVec : List ℚ) (inputWord : Str)
    (acc : List (Str × ℚ)) (word : Str) : List (Str × ℚ) :=
  if word == inputWord then acc
  else
    match M.vectors.lookup word with
    | some v =>
        if SIM_THRESHOLD_SQ ≤ simScore inputVec v then
          acc ++ [(word, simScore inputVec v)]
        else acc
    | none => acc

/-- The candidate list of `findSynonyms`: the loaded words other than the
input whose similarity to it reaches the threshold, with their (transformed)
similarity, in vocab order. -/
def synonymCandidates (M : SemanticModel) (inputVec : List ℚ) (inputWord : Str) :
    List (Str × ℚ) :=
  M.vocab.foldl (synStep M inputVec inputWord) []

/-- The comparator `(a, b) => b.score - a.score` of the synonym sort (total
preorder form). -/
def synDescRel (a b : Str × ℚ) : Prop := b.2 ≤ a.2

instance : DecidableRel synDescRel :=
  fun a b => inferInstanceAs (Decidable (b.2 ≤ a.2))

instance : IsTotal (Str × ℚ) synDescRel :=
  ⟨fun a b => le_total b.2 a.2⟩

instance : IsTrans (Str × ℚ) synDescRel :=
  ⟨fun _ _ _ h1 h2 => le_trans h2 h1⟩

/-- `SemanticModel.findSynonyms`: empty when the model is not loaded or the
word has no vector; otherwise the top `MAX_SYNONYMS` candidates by descending
similarity (stable sort). -/
def findSynonyms (M : SemanticModel) (inputWord : Str) : List Str :=
  if !M.isLoaded then []
  else
    match M.vectors.lookup inputWord with
    | none => []
    | some inputVec =>
        (((synonymCandidates M inputVec inputWord).insertionSort
            synDescRel).take MAX_SYNONYMS).map (·.1)

/-! ## Incremental indexer (appendIndex.js worker)

The worker's view of the persistent files, as one value. -/

/-- A forward-index entry: word id → hit list, in first-hit order. -/
abbrev ForwardEntry := List (Nat × List Hit)

/-- The persistent files read and written by the indexing job. -/
structure FileState where
  lexicon : Lexicon
  docStore : DocStore
  forwardIndex : List (Str × ForwardEntry)
  barrels : Barrels
deriving DecidableEq

/-- One input article of a batch (absent fields are `none`). -/
structure Article where
  id : Option Str
  title : Option Str
  abstract : Option Str
  categories : Option Str
  authors : Option Str
  submitter : Option Str

/-- The article's fields in canonical order with their field codes, keeping
only truthy texts (`.filter(f => f.text)`). -/
def articleFields (a : Article) : List (Str × Nat) :=
  [(a.title, 1), (a.abstract, 2), (a.categories, 3), (a.authors, 4), (a.submitter, 5)].filterMap
    (fun p => (jsStr p.1).map (fun t => (t, p.2)))

/-- Is the token skipped by the indexer (too short or a stop word)? -/
def skippedTok (tok : Str) : Bool :=
  decide (tok.length < MIN_TOKEN_LENGTH) || STOP_WORDS.contains tok

/-- Per-article tokenization state: the (mutated) lexicon, the next free word
id, the document's forward entry so far, and the running position counter. -/
structure TokState where
  lexicon : Lexicon
  nextId : Nat
  docEntry : ForwardEntry
  pos : Nat

/-- Processing of one token of one field: skipped tokens only advance the
position; accepted tokens are interned (appending a fresh id when new) and add
a hit `{ pos, type }` to the document's entry for their word id. -/
def processTok (ftype : Nat) (st : TokState) (tok : Str) : TokState :=
  if skippedTok tok then { st with pos := st.pos + 1 }
  else
    match truthyId (st.lexicon.lookup tok) with
    | some wid =>
        { st with
          docEntry :=
            match st.docEntry.lookup wid with
            | some l => jsUpsert st.docEntry wid (l ++ [⟨st.pos, ftype⟩])
            | none => st.docEntry ++ [(wid, [⟨st.pos, ftype⟩])],
          pos := st.pos + 1 }
    | none =>
        { lexicon := st.lexicon ++ [(tok, st.nextId)],
          nextId := st.nextId + 1,
          docEntry :=
            match st.docEntry.lookup st.nextId with
            | some l => jsUpsert st.docEntry st.nextId (l ++ [⟨st.pos, ftype⟩])
            | none => st.docEntry ++ [(st.nextId, [⟨st.pos, ftype⟩])],
          pos := st.pos + 1 }

/-- Tokenize one article: all fields in canonical order, a single position
counter across fields. -/
def tokenizeArticle (a : Article) (lex : Lexicon) (nextId : Nat) : TokState :=
  (articleFields a).foldl
    (fun st f => (matchRuns (jsToLower f.1)).foldl (processTok f.2) st)
    ⟨lex, nextId, [], 0⟩

/-- Fold the document's forward entry into the per-barrel new-posting maps:
each word's hits become a posting `{ docId, hits }` appended to the word's
list in barrel `wordId % NUM_BARRELS`. -/
def addPostings (npb : List (Nat × BarrelFile)) (docId : Str)
    (entry : ForwardEntry) : List (Nat × BarrelFile) :=
  entry.foldl
    (fun npb2 wh =>
      let bIdx := wh.1 % NUM_BARRELS
      let bMap := (npb2.lookup bIdx).getD []
      let l := (bMap.lookup wh.1).getD []
      jsUpsert npb2 bIdx (jsUpsert bMap wh.1 (l ++ [⟨docId, wh.2⟩])))
    npb

/-- Accumulator of `processNewArticles`. -/
structure ProcState where
  lexicon : Lexicon
  nextId : Nat
  newPostingsByBarrel : List (Nat × BarrelFile)
  newForward : List (Str × ForwardEntry)
  processed : Nat

/-- `processNewArticles`, one article: skip articles without a truthy id, with
no truthy field, or whose forward entry comes out empty (the lexicon and next
id threads continue either way); otherwise record the new postings, the
forward entry, and count the document. -/
def processOneArticle (ps : ProcState) (a : Article) : ProcState :=
  match jsStr a.id with
  | none => ps
  | some docId =>
      if (articleFields a).isEmpty then ps
      else
        let tst := tokenizeArticle a ps.lexicon ps.nextId
        if tst.docEntry.isEmpty then
          { ps with lexicon := tst.lexicon, nextId := tst.nextId }
        else
          { lexicon := tst.lexicon,
            nextId := tst.nextId,
            newPostingsByBarrel := addPostings ps.newPostingsByBarrel docId tst.docEntry,
            newForward := jsUpsert ps.newForward docId tst.docEntry,
            processed := ps.processed + 1 }

/-- `processNewArticles`. -/
def processNewArticles (articles : List Article) (lex : Lexicon) (nextId : Nat) :
    ProcState :=
  articles.foldl processOneArticle ⟨lex, nextId, [], [], 0⟩

/-- `mergeNewPostings`: for each touched barrel, append each word's new
postings to the existing list and write the barrel back. -/
def mergeNewPostings (npb : List (Nat × BarrelFile)) (barrels : Barrels) : Barrels :=
  npb.foldl
    (fun bs bm =>
      let existing := (bs.lookup bm.1).getD []
      let merged :=
        bm.2.foldl
          (fun ex wp => jsUpsert ex wp.1 (((ex.lookup wp.1).getD []) ++ wp.2))
          existing
      jsUpsert bs bm.1 merged)
    barrels

/-- The doc-store record written for an article
(`{ title, authors: authors || "N/A", categories }`). -/
def mkRecord (a : Article) : DocRecord :=
  ⟨a.title, some (jsOr a.authors "N/A".toList), a.categories⟩

/-- One step of collecting `newMetadata` in `updateAndSaveDocStore`:
articles without an id are skipped. -/
def metaStep (m : List (Str × DocRecord)) (a : Article) : List (Str × DocRecord) :=
  match jsStr a.id with
  | none => m
  | some i => jsUpsert m i (mkRecord a)

/-- `updateAndSaveDocStore`: `{ ...docStore, ...newMetadata }` where
`newMetadata` collects the records of the articles that have an id. -/
def updateDocStore (articles : List Article) (ds : DocStore) : DocStore :=
  jsMerge ds (articles.foldl metaStep [])

/-- `findNextWordId`: one more than the largest id in the lexicon (`0` base). -/
def findNextWordId (lex : Lexicon) : Nat :=
  (lex.foldl (fun m kv => max m kv.2) 0) + 1

/-- The worker's result message. -/
inductive JobResult where
  | ok (indexedCount : Nat) (message : Str)
  | err (message : Str)
deriving DecidableEq

/-- The filter predicate of `runIndexingJob`
(`article.id && !existingDocIds.has(article.id)`). -/
def newDocPred (ds : DocStore) (a : Article) : Bool :=
  match jsStr a.id with
  | some i => !((ds.map (·.1)).contains i)
  | none => false

/-- The batch filter of `runIndexingJob`: keep articles with a truthy id that
is not yet in the doc store. -/
def articlesToProcessOf (newArticles : List Article) (ds : DocStore) : List Article :=
  newArticles.filter (newDocPred ds)

/-- `runIndexingJob`: filter the batch, return early when nothing new remains,
otherwise process, merge the barrels, and write back lexicon, doc store and
forward index. -/
def runIndexingJob (newArticles : List Article) (F : FileState) :
    JobResult × FileState :=
  let toProcess := articlesToProcessOf newArticles F.docStore
  if toProcess.isEmpty then (.ok 0 "No unique articles to index.".toList, F)
  else
    let ps := processNewArticles toProcess F.lexicon (findNextWordId F.lexicon)
    (.ok ps.processed "Successfully indexed documents.".toList,
     ⟨ps.lexicon,
      updateDocStore toProcess F.docStore,
      jsMerge F.forwardIndex ps.newForward,
      mergeNewPostings ps.newPostingsByBarrel F.barrels⟩)

/-! ## Initial barrel partitioner (the `partitionAndSaveBarrels` script) -/

/-- `partitionAndSaveBarrels`: distribute the inverted index over 64 barrel
maps by `wordId % NUM_BARRELS`, then save the non-empty ones (one file per
shard index). -/
def partitionAndSaveBarrels (invertedIndex : List (Nat × List Posting)) : Barrels :=
  let empty := (List.range NUM_BARRELS).map (fun i => (i, ([] : BarrelFile)))
  let filled :=
    invertedIndex.foldl
      (fun bs wp =>
        let idx := wp.1 % NUM_BARRELS
        jsUpsert bs idx (jsUpsert ((bs.lookup idx).getD []) wp.1 wp.2))
      empty
  filled.filter (fun p => !p.2.isEmpty)

/-! ## Spec-side definitions used to state the claims -/

/-- Maximum of a list of naturals (`0` for the empty list). -/
def natListMax : List Nat → Nat
  | [] => 0
  | x :: xs => xs.foldl Nat.max x

/-- Minimum of a list of naturals (`0` for the empty list). -/
def natListMin : List Nat → Nat
  | [] => 0
  | x :: xs => xs.foldl Nat.min x

/-- All hit positions collected across a document's surviving postings. -/
def allPositionsOf (ps : List ScoredPosting) : List Nat :=
  ps.flatMap (fun p => p.hits.map (·.pos))

/-- Spec-side base score of a posting: the sum of the field weights of its
hits. -/
def specBase (p : ScoredPosting) : ℚ :=
  (p.hits.map (fun h => FIELD_WEIGHTS h.type)).sum

/-- Spec-side proximity bonus: `max(0, 500 - min(span, 500)) / 100` with
`span` the difference between the maximum and the minimum collected hit
position. -/
def specBonus (ps : List ScoredPosting) : ℚ :=
  let span : ℚ := (natListMax (allPositionsOf ps) : ℚ) - (natListMin (allPositionsOf ps) : ℚ)
  max 0 (MAX_SPAN - min span MAX_SPAN) / 100

/-- Spec-side total score of a document with surviving postings `ps`: the sum
over the postings of base · (1 for exact, 0.5 for synonym), plus the proximity
bonus exactly when there is more than one surviving posting. -/
def specScore (ps : List ScoredPosting) : ℚ :=
  (ps.map (fun p => specBase p * (if p.isExact then 1 else 1 / 2))).sum +
    (if 1 < ps.length then specBonus ps else 0)

/-- Spec-side conjunction condition of C1: the word is (truthily) in the
vocabulary and its barrel holds a posting for the document. -/
def hasPostingFor (voc : Lexicon) (barrels : Barrels) (w : Str) (d : Str) : Prop :=
  ∃ id ps, vocabId voc w = some id ∧
    (loadBarrel barrels (getBarrelIndex id)).lookup id = some ps ∧
    d ∈ ps.map (·.docId)

/-- The barrel partition invariant: every word id appearing as a key of the
file with shard index `i` satisfies `wordId % NUM_BARRELS = i`. -/
def barrelsWF (bs : Barrels) : Prop :=
  ∀ p ∈ bs, ∀ q ∈ p.2, q.1 % NUM_BARRELS = p.1

/-- Spec-side sorted autocomplete matches: the distinct lexicon tokens having
the given string as a prefix, in lexicographic order. -/
def specSortedMatches (words : List Str) (pfx : Str) : List Str :=
  (dedupFirst (words.filter (fun w => pfx.isPrefixOf w))).insertionSort (· ≤ ·)

/-- The tokens of an article the indexer accepts (length ≥ 3, not a stop
word), across its truthy fields in canonical order. -/
def articleAcceptedToks (a : Article) : List Str :=
  (articleFields a).flatMap
    (fun f => (matchRuns (jsToLower f.1)).filter (fun t => !skippedTok t))

/-- The similarity (transformed as in `simScore`) the model assigns to `word`
relative to the input vector (`0` when the word has no vector). -/
def simOf (M : SemanticModel) (inputVec : List ℚ) (word : Str) : ℚ :=
  ((M.vectors.lookup word).map (simScore inputVec)).getD 0

/-! ## Concrete instances used by counterexamples and witnesses -/

/-- No semantic expansion (a model with no loaded vectors). -/
def noSyn : Str → List Str := fun _ => []

/-- S4 corpus vocabulary: `deep ↦ 1`, `learning ↦ 2`. -/
def vocS4 : Lexicon := [("deep".toList, 1), ("learning".toList, 2)]

/-- S4 corpus barrels: `d4` contains only `deep`, `d5` only `learning`. -/
def barS4 : Barrels :=
  [(1, [(1, [⟨"d4".toList, [⟨0, 1⟩]⟩])]),
   (2, [(2, [⟨"d5".toList, [⟨0, 1⟩]⟩])])]

/-- S4 corpus doc store. -/
def dsS4 : DocStore :=
  [("d4".toList, ⟨some "deep".toList, none, none⟩),
   ("d5".toList, ⟨some "learning".toList, none, none⟩)]

/-- Tie-break counterexample vocabulary: `abc ↦ 1`. -/
def vocTie : Lexicon := [("abc".toList, 1)]

/-- Tie-break counterexample barrels: the posting list of word 1 holds `bbb`
before `aaa`, both with a single abstract hit (equal scores). -/
def barTie : Barrels :=
  [(1, [(1, [⟨"bbb".toList, [⟨0, 2⟩]⟩, ⟨"aaa".toList, [⟨5, 2⟩]⟩])])]

/-- Synonym tie-break counterexample: three loaded words with identical
vectors, vocab order `aaa, zzz, yyy`. -/
def modelTie : SemanticModel :=
  ⟨[("aaa".toList, [1, 0]), ("zzz".toList, [1, 0]), ("yyy".toList, [1, 0])],
   ["aaa".toList, "zzz".toList, "yyy".toList], true⟩

/-- A minimal initialized engine state (for the empty-query scenario). -/
def stEmptyQuery : EngineState := ⟨some vocS4, some dsS4, barS4⟩

/-- An article whose only truthy field text is the stop word `the`, so it
yields no indexable token (C10 scenario). -/
def artStop : Article :=
  ⟨some "x1".toList, some "the".toList, none, none, none, none⟩

/-- An empty initial file state for the indexer. -/
def emptyFiles : FileState := ⟨[], [], [], []⟩

/-! # Theorems -/

/-! ## Association-list helper lemmas -/

theorem mem_keys_jsUpsert {K V : Type} [BEq K] [LawfulBEq K]
    (m : List (K × V)) (k k' : K) (v : V) :
    k' ∈ (jsUpsert m k v).map (·.1) ↔ k' = k ∨ k' ∈ m.map (·.1) := by
  induction m with
  | nil => simp [jsUpsert]
  | cons p rest ih =>
      obtain ⟨k0, v0⟩ := p
      by_cases h : (k0 == k) = true
      · have hk : k0 = k := eq_of_beq h
        subst hk
        simp only [jsUpsert, h, if_true, List.map_cons, List.mem_cons]
        tauto
      · rw [Bool.not_eq_true] at h
        simp only [jsUpsert, h, Bool.false_eq_true, if_false, List.map_cons,
          List.mem_cons, ih]
        tauto

theorem mem_keys_jsMerge_left {K V : Type} [BEq K] [LawfulBEq K]
    {a : List (K × V)} (b : List (K × V)) {k : K} (h : k ∈ a.map (·.1)) :
    k ∈ (jsMerge a b).map (·.1) := by
  induction b generalizing a with
  | nil => simpa [jsMerge] using h
  | cons q rest ih =>
      have hq : k ∈ (jsUpsert a q.1 q.2).map (·.1) :=
        (mem_keys_jsUpsert a q.1 k q.2).mpr (Or.inr h)
      simpa [jsMerge, List.foldl_cons] using ih hq

theorem mem_keys_jsMerge_right {K V : Type} [BEq K] [LawfulBEq K]
    (a : List (K × V)) {b : List (K × V)} {k : K} (h : k ∈ b.map (·.1)) :
    k ∈ (jsMerge a b).map (·.1) := by
  induction b generalizing a with
  | nil => simp at h
  | cons q rest ih =>
      rw [List.map_cons, List.mem_cons] at h
      rcases h with h1 | h2
      · have hq : k ∈ (jsUpsert a q.1 q.2).map (·.1) := by
          rw [h1]
          exact (mem_keys_jsUpsert a q.1 q.1 q.2).mpr (Or.inl rfl)
        simpa [jsMerge, List.foldl_cons] using mem_keys_jsMerge_left rest hq
      · simpa [jsMerge, List.foldl_cons] using ih (jsUpsert a q.1 q.2) h2

/-! ## C3: idempotent ingest -/

theorem metaStep_none {m : List (Str × DocRecord)} {a : Article}
    (h : jsStr a.id = none) : metaStep m a = m := by
  unfold metaStep
  rw [h]

theorem metaStep_some {m : List (Str × DocRecord)} {a : Article} {i : Str}
    (h : jsStr a.id = some i) : metaStep m a = jsUpsert m i (mkRecord a) := by
  unfold metaStep
  rw [h]

theorem keys_metaFold_mono (articles : List Article)
    (acc : List (Str × DocRecord)) {k : Str} (h : k ∈ acc.map (·.1)) :
    k ∈ (articles.foldl metaStep acc).map (·.1) := by
  induction articles generalizing acc with
  | nil => rw [List.foldl_nil]; exact h
  | cons b rest ih =>
      rw [List.foldl_cons]
      apply ih
      cases hb : jsStr b.id with
      | none => rw [metaStep_none hb]; exact h
      | some i =>
          rw [metaStep_some hb]
          exact (mem_keys_jsUpsert acc i k (mkRecord b)).mpr (Or.inr h)

theorem mem_keys_metaFold {articles : List Article} {a : Article} {i : Str}
    (ha : a ∈ articles) (hi : jsStr a.id = some i)
    (acc : List (Str × DocRecord)) :
    i ∈ (articles.foldl metaStep acc).map (·.1) := by
  induction articles generalizing acc with
  | nil => simp at ha
  | cons b rest ih =>
      rw [List.foldl_cons]
      rcases List.mem_cons.mp ha with h1 | h2
      · subst h1
        apply keys_metaFold_mono
        rw [metaStep_some hi]
        exact (mem_keys_jsUpsert acc i i (mkRecord a)).mpr (Or.inl rfl)
      · exact ih h2 _

/-- Articles of the batch keep their id in the updated doc store. -/
theorem mem_keys_updateDocStore {articles : List Article} {a : Article} {i : Str}
    (ha : a ∈ articles) (hi : jsStr a.id = some i) (ds : DocStore) :
    i ∈ (updateDocStore articles ds).map (·.1) :=
  mem_keys_jsMerge_right ds (mem_keys_metaFold ha hi [])

/-- Existing doc-store keys survive the update. -/
theorem mem_keys_updateDocStore_old (articles : List Article) {i : Str}
    {ds : DocStore} (h : i ∈ ds.map (·.1)) :
    i ∈ (updateDocStore articles ds).map (·.1) :=
  mem_keys_jsMerge_left _ h

theorem newDocPred_none {ds : DocStore} {a : Article}
    (h : jsStr a.id = none) : newDocPred ds a = false := by
  unfold newDocPred
  rw [h]

theorem newDocPred_some {ds : DocStore} {a : Article} {i : Str}
    (h : jsStr a.id = some i) :
    newDocPred ds a = !((ds.map (·.1)).contains i) := by
  unfold newDocPred
  rw [h]

/-- After a run of the indexing job, every article of the batch that has an id
is in the resulting doc store, so the filter of a second identical submission
drops everything. -/
theorem articlesToProcess_after_run (batch : List Article) (F : FileState) :
    articlesToProcessOf batch (runIndexingJob batch F).2.docStore = [] := by
  rw [articlesToProcessOf, List.filter_eq_nil_iff]
  intro a ha
  cases hid : jsStr a.id with
  | none => rw [newDocPred_none hid]; simp
  | some i =>
      rw [newDocPred_some hid]
      suffices hmem : i ∈ (runIndexingJob batch F).2.docStore.map (·.1) by
        have hc : ((runIndexingJob batch F).2.docStore.map (·.1)).contains i = true :=
          List.elem_eq_true_of_mem hmem
        intro hcontra
        rw [hc] at hcontra
        exact absurd hcontra (by decide)
      by_cases hfirst : (articlesToProcessOf batch F.docStore).isEmpty
      · have hF : (runIndexingJob batch F).2 = F := by
          simp [runIndexingJob, hfirst]
        rw [hF]
        have hnil : articlesToProcessOf batch F.docStore = [] :=
          List.isEmpty_iff.mp hfirst
        rw [articlesToProcessOf, List.filter_eq_nil_iff] at hnil
        have hpa := hnil a ha
        rw [newDocPred_some hid] at hpa
        have hc : (F.docStore.map (·.1)).contains i = true := by
          cases hcv : (F.docStore.map (·.1)).contains i with
          | false => rw [hcv] at hpa; exact absurd (by decide) hpa
          | true => rfl
        exact List.mem_of_elem_eq_true hc
      · have hF : (runIndexingJob batch F).2.docStore =
            updateDocStore (articlesToProcessOf batch F.docStore) F.docStore := by
          simp [runIndexingJob, hfirst]
        rw [hF]
        by_cases hpass : a ∈ articlesToProcessOf batch F.docStore
        · exact mem_keys_updateDocStore hpass hid _
        · apply mem_keys_updateDocStore_old
          have hnp : ¬ (newDocPred F.docStore a = true) := by
            intro hp
            exact hpass (List.mem_filter.mpr ⟨ha, hp⟩)
          rw [newDocPred_some hid] at hnp
          have hc : (F.docStore.map (·.1)).contains i = true := by
            cases hcv : (F.docStore.map (·.1)).contains i with
            | false => rw [hcv] at hnp; exact absurd (by decide) hnp
            | true => rfl
          exact List.mem_of_elem_eq_true hc

/-- C3: submitting the same batch a second time drops every document (its id
is already in the document store after the first run) — the job reports
`indexedCount = 0` with the early-return message — and the lexicon, document
store, forward index and barrel files are returned exactly as the first
submission left them. -/
theorem ingest_idempotent (batch : List Article) (F : FileState) :
    runIndexingJob batch (runIndexingJob batch F).2 =
      (JobResult.ok 0 "No unique articles to index.".toList,
       (runIndexingJob batch F).2) := by
  have h := articlesToProcess_after_run batch F
  generalize hF1 : (runIndexingJob batch F).2 = F1 at h ⊢
  simp [runIndexingJob, h]

/-! ## C9: empty query -/

/-- C9 counterexample: at a concrete initialized engine state,
`search("", 1, 10)` succeeds but its `totalResults` is the `undefined` of the
early return (`none`), not `0` — the early return of `executeSearch` omits the
`totalResults` property, so the claim's `totalResults = 0` is false. -/
theorem c9_empty_query_counterexample :
    (search stEmptyQuery noSyn "".toList 1 10).toOption.map SearchOut.totalResults
        = some none ∧
      (search stEmptyQuery noSyn "".toList 1 10).toOption.map SearchOut.totalResults
        ≠ some (some 0) := by
  constructor
  · rfl
  · decide

/-- C9 amended: a query that tokenizes to no accepted tokens is not an error —
on any initialized engine state, `search("", 1, 10)` returns the empty page
`results = []`, `tokens = []`, `hasMore = false` — but with `totalResults`
absent (`undefined`, here `none`) rather than `0`, because the early return of
`executeSearch` omits that property. -/
theorem c9_empty_query_empty_page (voc : Lexicon) (ds : DocStore)
    (barrels : Barrels) (syn : Str → List Str) :
    search ⟨some voc, some ds, barrels⟩ syn "".toList 1 10 =
      .ok ⟨[], [], 1, 10, none, false⟩ := rfl

/-! ## C5: result ordering -/

theorem intersectRest_nil (gs : List (List (Str × ScoredPosting))) :
    intersectRest [] gs = [] := by
  cases gs with
  | nil => rfl
  | cons g rest => simp [intersectRest, intersectStep]

theorem groupWordStep_none {voc : Lexicon} {loaded : List (Nat × List Posting)}
    {qt : Str} {m : List (Str × ScoredPosting)} {w : Str}
    (h : vocabId voc w = none) : groupWordStep voc loaded qt m w = m := by
  unfold groupWordStep
  rw [h]

theorem groupWordStep_missing {voc : Lexicon} {loaded : List (Nat × List Posting)}
    {qt : Str} {m : List (Str × ScoredPosting)} {w : Str} {id : Nat}
    (h : vocabId voc w = some id) (h2 : loaded.lookup id = none) :
    groupWordStep voc loaded qt m w = m := by
  unfold groupWordStep
  rw [h]
  show (match loaded.lookup id with
        | none => m
        | some ps => ps.foldl (addGroupPosting qt w) m) = m
  rw [h2]

theorem groupWordStep_found {voc : Lexicon} {loaded : List (Nat × List Posting)}
    {qt : Str} {m : List (Str × ScoredPosting)} {w : Str} {id : Nat}
    {ps : List Posting} (h : vocabId voc w = some id)
    (h2 : loaded.lookup id = some ps) :
    groupWordStep voc loaded qt m w = ps.foldl (addGroupPosting qt w) m := by
  unfold groupWordStep
  rw [h]
  show (match loaded.lookup id with
        | none => m
        | some ps2 => ps2.foldl (addGroupPosting qt w) m) =
    ps.foldl (addGroupPosting qt w) m
  rw [h2]

theorem buildGroupMap_nil_of_none {voc : Lexicon} {g : List Str}
    (h : ∀ w ∈ g, vocabId voc w = none) (loaded : List (Nat × List Posting))
    (qt : Str) : buildGroupMap voc loaded qt g = [] := by
  unfold buildGroupMap
  induction g with
  | nil => rfl
  | cons w ws ih =>
      rw [List.foldl_cons, groupWordStep_none (h w (List.mem_cons_self w ws))]
      exact ih (fun w' hw' => h w' (List.mem_cons_of_mem w hw'))

theorem candidatesOf_nil_of_groupDocs_nil {voc : Lexicon} {barrels : Barrels}
    {syn : Str → List Str} {qts : List Str}
    (h : ∀ M ∈ groupDocsOf voc barrels syn qts, M = []) :
    candidatesOf voc barrels syn qts = [] := by
  unfold candidatesOf
  cases hs : (groupDocsOf voc barrels syn qts).insertionSort sizeAscRel with
  | nil => rfl
  | cons M0 rest =>
      have hM0 : M0 ∈ groupDocsOf voc barrels syn qts := by
        rw [← List.mem_insertionSort sizeAscRel]
        rw [hs]
        exact List.mem_cons_self M0 rest
      have hM0nil : M0 = [] := h M0 hM0
      subst hM0nil
      simpa [intersectAll] using intersectRest_nil rest

theorem candidatesOf_nil_of_no_ids {voc : Lexicon} {barrels : Barrels}
    {syn : Str → List Str} {qts : List Str}
    (h : allWordIdsOf voc (getQueryGroups syn qts) = []) :
    candidatesOf voc barrels syn qts = [] := by
  apply candidatesOf_nil_of_groupDocs_nil
  intro M hM
  unfold groupDocsOf at hM
  obtain ⟨tg, htg, rfl⟩ := List.mem_map.mp hM
  apply buildGroupMap_nil_of_none
  intro w hw
  have hg : tg.2 ∈ getQueryGroups syn qts := (List.of_mem_zip htg).2
  have hnone : ∀ g ∈ getQueryGroups syn qts, g.filterMap (vocabId voc) = [] := by
    intro g hgmem
    have := List.flatMap_eq_nil_iff.mp h
    exact this g hgmem
  have := (List.filterMap_eq_nil_iff.mp (hnone tg.2 hg)) w hw
  exact this

theorem candidatesOf_nil_of_empty_tokens {voc : Lexicon} {barrels : Barrels}
    {syn : Str → List Str} : candidatesOf voc barrels syn [] = [] := rfl

/-- The three branches of `executeSearch`ʼs result list: either an early empty
return with the candidate set empty as well, or the stable descending sort of
the raw rows of the intersected candidates. -/
theorem executeSearch_results_cases (voc : Lexicon) (barrels : Barrels)
    (syn : Str → List Str) (q : Str) :
    ((executeSearch voc barrels syn q).results = [] ∧
      rawResultsOf (tokenizeQuery q) (candidatesOf voc barrels syn (tokenizeQuery q)) = []) ∨
    (executeSearch voc barrels syn q).results =
      (rawResultsOf (tokenizeQuery q)
        (candidatesOf voc barrels syn (tokenizeQuery q))).insertionSort
        scoreDescRel := by
  unfold executeSearch
  by_cases h1 : (tokenizeQuery q).isEmpty
  · left
    have hq : tokenizeQuery q = [] := List.isEmpty_iff.mp h1
    constructor
    · simp [h1]
    · rw [hq, candidatesOf_nil_of_empty_tokens]
      rfl
  · by_cases h2 : (allWordIdsOf voc (getQueryGroups syn (tokenizeQuery q))).isEmpty
    · left
      constructor
      · simp [h1, h2]
      · rw [candidatesOf_nil_of_no_ids (List.isEmpty_iff.mp h2)]
        rfl
    · by_cases h3 : (groupDocsOf voc barrels syn (tokenizeQuery q)).isEmpty
      · left
        constructor
        · simp [h1, h2, h3]
        · rw [candidatesOf_nil_of_groupDocs_nil
            (fun M hM => by rw [List.isEmpty_iff.mp h3] at hM; cases hM)]
          rfl
      · right
        simp [h1, h2, h3]

/-- C5 counterexample: the claimed ordering — score descending with docID
ascending on ties — fails on a concrete corpus: word 1's posting list holds
`bbb` before `aaa`, both score 1, and the stable score-only sort leaves `bbb`
(the larger docID) first. -/
theorem c5_order_counterexample :
    ¬ ((executeSearch vocTie barTie noSyn "abc".toList).results.Pairwise
        (fun a b => b.score ≤ a.score ∧ (a.score = b.score → a.docId ≤ b.docId))) := by
  intro h
  have hres : (executeSearch vocTie barTie noSyn "abc".toList).results =
      [⟨"bbb".toList, 1, 1, "Exact".toList⟩, ⟨"aaa".toList, 1, 1, "Exact".toList⟩] := rfl
  rw [hres] at h
  have hrel := (List.pairwise_cons.mp h).1 _ (List.mem_cons_self _ _)
  exact absurd (hrel.2 rfl) (by decide)

/-- C5 amended: the final result list is sorted by total score descending, and
results with equal total score keep the order in which their documents came out
of the intersection (the sort is stable) — there is no docID tie-break: any two
rows in pre-sort order whose scores allow it remain in that order. -/
theorem c5_results_sorted_desc_stable (voc : Lexicon) (barrels : Barrels)
    (syn : Str → List Str) (q : Str) :
    ((executeSearch voc barrels syn q).results.Pairwise
        (fun a b => b.score ≤ a.score)) ∧
      (∀ a b : RawResult, b.score ≤ a.score →
        [a, b].Sublist
          (rawResultsOf (tokenizeQuery q)
            (candidatesOf voc barrels syn (tokenizeQuery q))) →
        [a, b].Sublist (executeSearch voc barrels syn q).results) := by
  rcases executeSearch_results_cases voc barrels syn q with ⟨hres, hraw⟩ | hres
  · constructor
    · rw [hres]
      exact List.Pairwise.nil
    · intro a b _ hsub
      rw [hraw] at hsub
      exact absurd (List.sublist_nil.mp hsub) (by simp)
  · constructor
    · rw [hres]
      exact List.sorted_insertionSort scoreDescRel
        (rawResultsOf (tokenizeQuery q) (candidatesOf voc barrels syn (tokenizeQuery q)))
    · intro a b hle hsub
      rw [hres]
      exact List.pair_sublist_insertionSort (r := scoreDescRel) hle hsub

/-- Witness for the amended C5 theorem at the tie corpus: the equal-score pair
survives the sort in pre-sort order. -/
theorem c5_results_sorted_desc_stable_witness :
    ((executeSearch vocTie barTie noSyn "abc".toList).results.Pairwise
        (fun a b => b.score ≤ a.score)) ∧
      ([(⟨"bbb".toList, 1, 1, "Exact".toList⟩ : RawResult),
        ⟨"aaa".toList, 1, 1, "Exact".toList⟩].Sublist
          (executeSearch vocTie barTie noSyn "abc".toList).results) :=
  ⟨(c5_results_sorted_desc_stable vocTie barTie noSyn "abc".toList).1,
   (c5_results_sorted_desc_stable vocTie barTie noSyn "abc".toList).2
     ⟨"bbb".toList, 1, 1, "Exact".toList⟩ ⟨"aaa".toList, 1, 1, "Exact".toList⟩
     (le_refl 1) (List.Sublist.refl _)⟩

/-! ## C4: barrel partition invariant -/

theorem mem_of_lookup_eq_some {K V : Type} [BEq K] [LawfulBEq K]
    {m : List (K × V)} {k : K} {v : V} (h : m.lookup k = some v) : (k, v) ∈ m := by
  induction m with
  | nil => simp [List.lookup] at h
  | cons p rest ih =>
      obtain ⟨k0, v0⟩ := p
      by_cases hk : (k == k0) = true
      · have : k = k0 := eq_of_beq hk
        subst this
        rw [List.lookup_cons_self] at h
        cases h
        exact List.mem_cons_self _ _
      · rw [Bool.not_eq_true] at hk
        rw [List.lookup, hk] at h
        exact List.mem_cons_of_mem _ (ih h)

theorem eq_or_mem_of_mem_jsUpsert {K V : Type} [BEq K] [LawfulBEq K]
    {m : List (K × V)} {k : K} {v : V} {p : K × V} (h : p ∈ jsUpsert m k v) :
    p = (k, v) ∨ p ∈ m := by
  induction m with
  | nil => simpa [jsUpsert] using h
  | cons q rest ih =>
      obtain ⟨k0, v0⟩ := q
      by_cases hk : (k0 == k) = true
      · have hk0 : k0 = k := eq_of_beq hk
        subst hk0
        simp only [jsUpsert, beq_self_eq_true, if_true, List.mem_cons] at h
        rcases h with h1 | h2
        · exact Or.inl h1
        · exact Or.inr (List.mem_cons_of_mem _ h2)
      · rw [Bool.not_eq_true] at hk
        simp only [jsUpsert, hk, Bool.false_eq_true, if_false, List.mem_cons] at h
        rcases h with h1 | h2
        · exact Or.inr (List.mem_cons.mpr (Or.inl h1))
        · rcases ih h2 with h3 | h4
          · exact Or.inl h3
          · exact Or.inr (List.mem_cons_of_mem _ h4)

/-- One assignment `barrels[w % 64].set(w, v)` preserves the partition
invariant (shared shape of the partition build and of the per-article posting
grouping). -/
theorem barrelsWF_upsert_shard {bs : List (Nat × BarrelFile)}
    (h : barrelsWF bs) (wid : Nat) (v : List Posting) :
    barrelsWF (jsUpsert bs (wid % NUM_BARRELS)
      (jsUpsert ((bs.lookup (wid % NUM_BARRELS)).getD []) wid v)) := by
  intro p hp q hq
  rcases eq_or_mem_of_mem_jsUpsert hp with h1 | h2
  · subst h1
    rcases eq_or_mem_of_mem_jsUpsert hq with h3 | h4
    · rw [h3]
    · cases hl : (bs.lookup (wid % NUM_BARRELS)) with
      | none => rw [hl] at h4; cases h4
      | some f =>
          rw [hl] at h4
          exact h _ (mem_of_lookup_eq_some hl) q h4
  · exact h p h2 q hq

/-- C4 part (a): the initial partition build satisfies the invariant. -/
theorem partitionAndSaveBarrels_WF (inv : List (Nat × List Posting)) :
    barrelsWF (partitionAndSaveBarrels inv) := by
  unfold partitionAndSaveBarrels
  intro p hp
  have hp2 := (List.mem_filter.mp hp).1
  revert p
  suffices hfold : barrelsWF (inv.foldl
      (fun bs wp =>
        jsUpsert bs (wp.1 % NUM_BARRELS)
          (jsUpsert ((bs.lookup (wp.1 % NUM_BARRELS)).getD []) wp.1 wp.2))
      ((List.range NUM_BARRELS).map (fun i => (i, ([] : BarrelFile))))) by
    intro p hp hp2 q hq
    exact hfold p hp2 q hq
  generalize hseed : (List.range NUM_BARRELS).map (fun i => (i, ([] : BarrelFile))) = seed
  have hseedWF : barrelsWF seed := by
    intro p hp q hq
    rw [← hseed] at hp
    obtain ⟨i, _, rfl⟩ := List.mem_map.mp hp
    cases hq
  clear hseed
  induction inv generalizing seed with
  | nil => exact hseedWF
  | cons wp rest ih =>
      rw [List.foldl_cons]
      exact ih _ (barrelsWF_upsert_shard hseedWF wp.1 wp.2)

/-- The per-article grouping of new postings preserves the invariant. -/
theorem addPostings_WF {npb : List (Nat × BarrelFile)} (h : barrelsWF npb)
    (docId : Str) (entry : ForwardEntry) :
    barrelsWF (addPostings npb docId entry) := by
  unfold addPostings
  induction entry generalizing npb with
  | nil => exact h
  | cons wh rest ih =>
      rw [List.foldl_cons]
      exact ih (barrelsWF_upsert_shard h wh.1 _)

/-- The new-posting maps produced by `processNewArticles` satisfy the
invariant. -/
theorem processNewArticles_WF (articles : List Article) (lex : Lexicon)
    (nextId : Nat) :
    barrelsWF (processNewArticles articles lex nextId).newPostingsByBarrel := by
  unfold processNewArticles
  suffices hgen : ∀ (ps : ProcState), barrelsWF ps.newPostingsByBarrel →
      barrelsWF (articles.foldl processOneArticle ps).newPostingsByBarrel by
    apply hgen
    intro p hp
    cases hp
  induction articles with
  | nil => intro ps h; exact h
  | cons a rest ih =>
      intro ps h
      rw [List.foldl_cons]
      apply ih
      unfold processOneArticle
      cases jsStr a.id with
      | none => exact h
      | some docId =>
          by_cases hf : (articleFields a).isEmpty
          · simp only [hf, if_true]
            exact h
          · simp only [hf, Bool.false_eq_true, if_false]
            by_cases he : (tokenizeArticle a ps.lexicon ps.nextId).docEntry.isEmpty
            · simp only [he, if_true]
              exact h
            · simp only [he, Bool.false_eq_true, if_false]
              exact addPostings_WF h docId _

/-- Keys of a merged barrel file come from the existing file or from the new
map. -/
theorem mem_mergeFold {newMap : BarrelFile} {existing : BarrelFile}
    {q : Nat × List Posting}
    (h : q ∈ newMap.foldl
      (fun ex wp => jsUpsert ex wp.1 (((ex.lookup wp.1).getD []) ++ wp.2))
      existing) :
    (∃ wp ∈ newMap, q.1 = wp.1) ∨ q ∈ existing := by
  induction newMap generalizing existing with
  | nil => exact Or.inr h
  | cons wp rest ih =>
      rw [List.foldl_cons] at h
      rcases ih h with ⟨wp', hwp', hq⟩ | h2
      · exact Or.inl ⟨wp', List.mem_cons_of_mem _ hwp', hq⟩
      · rcases eq_or_mem_of_mem_jsUpsert h2 with h3 | h4
        · refine Or.inl ⟨wp, List.mem_cons_self _ _, ?_⟩
          rw [h3]
        · exact Or.inr h4

/-- `mergeNewPostings` preserves the partition invariant when the new-posting
maps satisfy it. -/
theorem mergeNewPostings_WF {npb : List (Nat × BarrelFile)} {bs : Barrels}
    (hnpb : barrelsWF npb) (hbs : barrelsWF bs) :
    barrelsWF (mergeNewPostings npb bs) := by
  unfold mergeNewPostings
  induction npb generalizing bs with
  | nil => exact hbs
  | cons bm rest ih =>
      rw [List.foldl_cons]
      have hrest : barrelsWF rest := by
        intro p hp q hq
        exact hnpb p (List.mem_cons_of_mem _ hp) q hq
      apply ih hrest
      intro p hp q hq
      rcases eq_or_mem_of_mem_jsUpsert hp with h1 | h2
      · subst h1
        rcases mem_mergeFold hq with ⟨wp, hwp, hq1⟩ | h4
        · rw [hq1]
          exact hnpb bm (List.mem_cons_self _ _) wp hwp
        · cases hl : (bs.lookup bm.1) with
          | none => rw [hl] at h4; cases h4
          | some f =>
              rw [hl] at h4
              exact hbs _ (mem_of_lookup_eq_some hl) q h4
      · exact hbs p h2 q hq

/-- C4: every word id appearing as a key in the barrel file with shard index
`i` satisfies `wordId % NUM_BARRELS = i` (with `NUM_BARRELS = 64`): the
invariant holds for the initial partition build, and it is preserved by every
incremental-indexer run. -/
theorem barrel_partition_invariant :
    (∀ inv : List (Nat × List Posting), barrelsWF (partitionAndSaveBarrels inv)) ∧
      (∀ (batch : List Article) (F : FileState), barrelsWF F.barrels →
        barrelsWF (runIndexingJob batch F).2.barrels) := by
  constructor
  · exact partitionAndSaveBarrels_WF
  · intro batch F hF
    unfold runIndexingJob
    by_cases hempty : (articlesToProcessOf batch F.docStore).isEmpty
    · simpa [hempty] using hF
    · simp only [hempty, Bool.false_eq_true, if_false]
      exact mergeNewPostings_WF (processNewArticles_WF _ _ _) hF

/-- Witness for C4 at a concrete one-article state (the preservation part has
the invariant as hypothesis). -/
theorem barrel_partition_invariant_witness :
    barrelsWF (runIndexingJob
      [⟨some "d1".toList, some "neural".toList, none, none, none, none⟩]
      ⟨[], [], [], []⟩).2.barrels :=
  barrel_partition_invariant.2 _ ⟨[], [], [], []⟩ (fun _ hp => by cases hp)

/-! ## C2: the per-document total score -/

theorem foldl_add_init {α : Type} (f : α → ℚ) (l : List α) (c : ℚ) :
    l.foldl (fun acc x => acc + f x) c = c + (l.map f).sum := by
  induction l generalizing c with
  | nil => simp
  | cons a rest ih =>
      rw [List.foldl_cons, ih, List.map_cons, List.sum_cons]
      ring

theorem calculateSingleWordScore_eq_specBase (p : ScoredPosting) :
    calculateSingleWordScore p = specBase p := by
  unfold calculateSingleWordScore specBase
  rw [foldl_add_init, zero_add]

theorem natListMin_spec {l : List Nat} (h : l ≠ []) :
    natListMin l ∈ l ∧ ∀ b ∈ l, natListMin l ≤ b := by
  cases l with
  | nil => exact absurd rfl h
  | cons x xs =>
      have hmin : (x :: xs).min? = some (natListMin (x :: xs)) := rfl
      exact (List.min?_eq_some_iff Nat.le_refl
        (fun a b => by rw [Nat.min_def]; split <;> simp
          [le_antisymm_iff, Nat.le_of_lt, Nat.le_of_not_le, *])
        (fun a b c => Nat.le_min)).mp hmin

theorem natListMax_spec {l : List Nat} (h : l ≠ []) :
    natListMax l ∈ l ∧ ∀ b ∈ l, b ≤ natListMax l := by
  cases l with
  | nil => exact absurd rfl h
  | cons x xs =>
      have hmax : (x :: xs).max? = some (natListMax (x :: xs)) := rfl
      exact (List.max?_eq_some_iff Nat.le_refl
        (fun a b => by rw [Nat.max_def]; split <;> simp
          [le_antisymm_iff, Nat.le_of_lt, Nat.le_of_not_le, *])
        (fun a b c => Nat.max_le)).mp hmax

theorem le_getLastD_of_sorted {s : List Nat} (hs : List.Sorted (· ≤ ·) s) :
    ∀ x ∈ s, x ≤ s.getLast?.getD 0 := by
  induction s with
  | nil => intro x hx; cases hx
  | cons a rest ih =>
      intro x hx
      cases rest with
      | nil =>
          rcases List.mem_singleton.mp hx with rfl
          simp
      | cons b rest2 =>
          rw [List.getLast?_cons_cons]
          rcases List.mem_cons.mp hx with rfl | hx2
          · have hab : x ≤ b := List.rel_of_sorted_cons hs b (List.mem_cons_self _ _)
            have hb := ih hs.of_cons b (List.mem_cons_self _ _)
            exact le_trans hab hb
          · exact ih hs.of_cons x hx2

theorem getLastD_mem {s : List Nat} (h : s ≠ []) : s.getLast?.getD 0 ∈ s := by
  rw [List.getLast?_eq_getLast s h]
  exact List.getLast_mem h

theorem sorted_headD_eq_min {l : List Nat} (h : l ≠ []) :
    (l.insertionSort (· ≤ ·)).headD 0 = natListMin l := by
  have hperm := List.perm_insertionSort (· ≤ ·) l
  have hsorted := List.sorted_insertionSort (· ≤ ·) l
  obtain ⟨hmem, hle⟩ := natListMin_spec h
  cases hsl : l.insertionSort (· ≤ ·) with
  | nil =>
      rw [hsl] at hperm
      exact absurd (hperm.symm.eq_nil) h
  | cons a rest =>
      rw [hsl] at hperm hsorted
      rw [List.headD_cons]
      apply le_antisymm
      · have hmem' : natListMin l ∈ a :: rest := hperm.mem_iff.mpr hmem
        rcases List.mem_cons.mp hmem' with heq | hmem2
        · exact le_of_eq heq.symm
        · exact List.rel_of_sorted_cons hsorted _ hmem2
      · exact hle a (hperm.mem_iff.mp (List.mem_cons_self _ _))

theorem sorted_getLastD_eq_max {l : List Nat} (h : l ≠ []) :
    (l.insertionSort (· ≤ ·)).getLast?.getD 0 = natListMax l := by
  have hperm := List.perm_insertionSort (· ≤ ·) l
  have hsorted := List.sorted_insertionSort (· ≤ ·) l
  obtain ⟨hmem, hle⟩ := natListMax_spec h
  have hne : l.insertionSort (· ≤ ·) ≠ [] := by
    intro hnil
    rw [hnil] at hperm
    exact h hperm.symm.eq_nil
  apply le_antisymm
  · exact hle _ (hperm.mem_iff.mp (getLastD_mem hne))
  · exact le_getLastD_of_sorted hsorted _ (hperm.mem_iff.mpr hmem)

theorem calculateProximityBonus_eq_specBonus {ps : List ScoredPosting}
    (h : allPositionsOf ps ≠ []) :
    calculateProximityBonus ps = specBonus ps := by
  unfold calculateProximityBonus specBonus
  have hne : (ps.flatMap (fun p => p.hits.map (·.pos))).isEmpty = false := by
    rw [List.isEmpty_eq_false_iff_exists_mem]
    unfold allPositionsOf at h
    cases hl : ps.flatMap (fun p => p.hits.map (·.pos)) with
    | nil => exact absurd hl h
    | cons x xs => exact ⟨x, List.mem_cons_self _ _⟩
  simp only [hne, Bool.false_eq_true, if_false]
  unfold allPositionsOf at h ⊢
  rw [sorted_headD_eq_min h, sorted_getLastD_eq_max h]

theorem totalScoreOf_eq_specScore (ps : List ScoredPosting)
    (h : ∀ p ∈ ps, p.hits ≠ []) : totalScoreOf ps = specScore ps := by
  unfold totalScoreOf specScore
  have hbase : ps.foldl
      (fun acc p =>
        acc + (if p.isExact then calculateSingleWordScore p
               else calculateSingleWordScore p * (1 / 2)))
      0 = (ps.map (fun p => specBase p * (if p.isExact then 1 else 1 / 2))).sum := by
    rw [foldl_add_init
      (fun p => if p.isExact then calculateSingleWordScore p
                else calculateSingleWordScore p * (1 / 2)) ps 0, zero_add]
    congr 1
    apply List.map_congr_left
    intro p _
    rw [calculateSingleWordScore_eq_specBase]
    by_cases he : p.isExact
    · simp [he]
    · simp [he]
  by_cases hlen : 1 < ps.length
  · simp only [hlen, if_true]
    rw [hbase]
    congr 1
    apply calculateProximityBonus_eq_specBonus
    intro hnil
    have hps : ps ≠ [] := by
      intro hx
      rw [hx] at hlen
      exact absurd hlen (by simp)
    cases hp : ps with
    | nil => exact hps hp
    | cons p rest =>
        have hmem : p ∈ ps := by rw [hp]; exact List.mem_cons_self _ _
        have hhits := h p hmem
        have : p.hits.map (·.pos) = [] := by
          have hsub : ∀ x ∈ p.hits.map (·.pos), x ∈ allPositionsOf ps := by
            intro x hx
            unfold allPositionsOf
            exact List.mem_flatMap.mpr ⟨p, hmem, hx⟩
          cases hmap : p.hits.map (·.pos) with
          | nil => rfl
          | cons y ys =>
              have : y ∈ allPositionsOf ps := hsub y (by rw [hmap]; exact List.mem_cons_self _ _)
              rw [hnil] at this
              cases this
        exact hhits (List.map_eq_nil_iff.mp this)
  · simp only [hlen, if_false]
    rw [hbase, add_zero]

/-- Rows of `executeSearch` come from the intersected candidate map, with the
score computed by `totalScoreOf` on the document's surviving postings. -/
theorem executeSearch_results_mem {voc : Lexicon} {barrels : Barrels}
    {syn : Str → List Str} {q : Str} {r : RawResult}
    (h : r ∈ (executeSearch voc barrels syn q).results) :
    ∃ dps ∈ candidatesOf voc barrels syn (tokenizeQuery q),
      r.docId = dps.1 ∧ r.score = totalScoreOf dps.2 ∧ r.wordCount = dps.2.length := by
  rcases executeSearch_results_cases voc barrels syn q with ⟨hres, _⟩ | hres
  · rw [hres] at h
    cases h
  · rw [hres] at h
    have h2 := (List.mem_insertionSort scoreDescRel).mp h
    unfold rawResultsOf at h2
    obtain ⟨dps, hdps, heq⟩ := List.mem_map.mp h2
    exact ⟨dps, hdps, by rw [← heq], by rw [← heq], by rw [← heq]⟩

/-- C2: for every surviving document, its total score is the sum over its
surviving postings of (the sum of the field weights of the posting's hits,
weights `{1:5, 2:1, 3:3, 4:1, 5:1}`) times 1 for an exact-match posting and
0.5 for a synonym-match posting, plus — exactly when the document has more
than one surviving posting — the proximity bonus
`max(0, 500 - min(span, 500)) / 100`, `span` being the difference between the
largest and the smallest hit position collected across all its surviving
postings (stated for postings with at least one hit, the shape the indexing
pipeline produces). -/
theorem c2_total_score :
    (∀ ps : List ScoredPosting, (∀ p ∈ ps, p.hits ≠ []) →
      totalScoreOf ps = specScore ps) ∧
    (∀ (voc : Lexicon) (barrels : Barrels) (syn : Str → List Str) (q : Str)
        (r : RawResult), r ∈ (executeSearch voc barrels syn q).results →
      ∃ dps ∈ candidatesOf voc barrels syn (tokenizeQuery q),
        r.docId = dps.1 ∧ r.score = totalScoreOf dps.2 ∧ r.wordCount = dps.2.length) :=
  ⟨totalScoreOf_eq_specScore, fun _ _ _ _ _ h => executeSearch_results_mem h⟩

/-- Witness for C2: the score formula evaluated at a concrete two-posting
document (base 5 exact + base 1 halved + proximity bonus for span 1), and the
membership part at the tie corpus. -/
theorem c2_total_score_witness :
    totalScoreOf
        [⟨"d".toList, [⟨0, 1⟩], true⟩, ⟨"d".toList, [⟨1, 2⟩], false⟩] =
      specScore [⟨"d".toList, [⟨0, 1⟩], true⟩, ⟨"d".toList, [⟨1, 2⟩], false⟩] ∧
    ∃ dps ∈ candidatesOf vocTie barTie noSyn (tokenizeQuery "abc".toList),
      (⟨"bbb".toList, 1, 1, "Exact".toList⟩ : RawResult).docId = dps.1 ∧
      (⟨"bbb".toList, 1, 1, "Exact".toList⟩ : RawResult).score = totalScoreOf dps.2 ∧
      (⟨"bbb".toList, 1, 1, "Exact".toList⟩ : RawResult).wordCount = dps.2.length :=
  ⟨c2_total_score.1 _ (by decide),
   c2_total_score.2 vocTie barTie noSyn "abc".toList _
     (by rw [show (executeSearch vocTie barTie noSyn "abc".toList).results =
          [⟨"bbb".toList, 1, 1, "Exact".toList⟩, ⟨"aaa".toList, 1, 1, "Exact".toList⟩]
          from rfl]
         exact List.mem_cons_self _ _)⟩

/-! ## C8: pagination and enrichment -/

/-- C8: for `page ≥ 1` and `limit ≥ 1`, `search` succeeds on a loaded state
and returns the slice `[(page-1)·limit, page·limit)` of the full sorted result
list, each row enriched with the title, authors and categories found for its
document in the doc store; `hasMore` holds exactly when `page·limit` is less
than the full list's length; and `totalResults` does not depend on the page or
the limit. -/
theorem c8_pagination (voc : Lexicon) (ds : DocStore) (barrels : Barrels)
    (syn : Str → List Str) (q : Str) (p l : Nat) (hp : 1 ≤ p) (_hl : 1 ≤ l) :
    search ⟨some voc, some ds, barrels⟩ syn q p l =
        .ok (searchRun voc ds barrels syn q p l) ∧
      (searchRun voc ds barrels syn q p l).results =
        ((((executeSearch voc barrels syn q).results.drop ((p - 1) * l)).take l).map
          (enrichResult ds)) ∧
      (∀ r ∈ (searchRun voc ds barrels syn q p l).results, ∀ m,
        ds.lookup r.docId = some m →
          r.title = m.title ∧ r.authors = m.authors ∧ r.categories = m.categories) ∧
      ((searchRun voc ds barrels syn q p l).hasMore = true ↔
        p * l < (executeSearch voc barrels syn q).results.length) ∧
      (∀ p2 l2 : Nat, (searchRun voc ds barrels syn q p2 l2).totalResults =
        (searchRun voc ds barrels syn q p l).totalResults) := by
  refine ⟨rfl, rfl, ?_, ?_, fun p2 l2 => rfl⟩
  · intro r hr m hm
    unfold searchRun at hr
    obtain ⟨raw, _, heq⟩ := List.mem_map.mp hr
    unfold enrichResult at heq
    have hdoc : raw.docId = r.docId := by
      cases hlk : ds.lookup raw.docId <;> rw [hlk] at heq <;> rw [← heq]
    rw [hdoc] at heq
    rw [hm] at heq
    rw [← heq]
    exact ⟨rfl, rfl, rfl⟩
  · unfold searchRun
    simp only [decide_eq_true_eq]
    have harith : (p - 1) * l + l = p * l := by
      cases p with
      | zero => exact absurd hp (by simp)
      | succ n => simp [Nat.succ_sub_one, Nat.succ_mul]
    rw [harith]

/-- Witness for C8 at `page = 1`, `limit = 10` on the S4 corpus. -/
theorem c8_pagination_witness :
    search ⟨some vocS4, some dsS4, barS4⟩ noSyn "deep".toList 1 10 =
        .ok (searchRun vocS4 dsS4 barS4 noSyn "deep".toList 1 10) ∧
      (searchRun vocS4 dsS4 barS4 noSyn "deep".toList 1 10).results =
        ((((executeSearch vocS4 barS4 noSyn "deep".toList).results.drop ((1 - 1) * 10)).take 10).map
          (enrichResult dsS4)) ∧
      (∀ r ∈ (searchRun vocS4 dsS4 barS4 noSyn "deep".toList 1 10).results, ∀ m,
        dsS4.lookup r.docId = some m →
          r.title = m.title ∧ r.authors = m.authors ∧ r.categories = m.categories) ∧
      ((searchRun vocS4 dsS4 barS4 noSyn "deep".toList 1 10).hasMore = true ↔
        1 * 10 < (executeSearch vocS4 barS4 noSyn "deep".toList).results.length) ∧
      (∀ p2 l2 : Nat, (searchRun vocS4 dsS4 barS4 noSyn "deep".toList p2 l2).totalResults =
        (searchRun vocS4 dsS4 barS4 noSyn "deep".toList 1 10).totalResults) :=
  c8_pagination vocS4 dsS4 barS4 noSyn "deep".toList 1 10 (by decide) (by decide)

/-! ## C1: conjunctive semantics of the group intersection -/

theorem lookup_jsUpsert {K V : Type} [BEq K] [LawfulBEq K]
    (m : List (K × V)) (k k' : K) (v : V) :
    (jsUpsert m k v).lookup k' = if k' == k then some v else m.lookup k' := by
  induction m with
  | nil =>
      rw [jsUpsert, List.lookup_cons]
      cases hb : k' == k <;> simp [hb]
  | cons p rest ih =>
      obtain ⟨k0, v0⟩ := p
      by_cases h : (k0 == k) = true
      · have hk0 : k0 = k := eq_of_beq h
        subst hk0
        simp only [jsUpsert, beq_self_eq_true, if_true]
        rw [List.lookup_cons, List.lookup_cons]
        cases hb : k' == k0 <;> simp [hb]
      · rw [Bool.not_eq_true] at h
        simp only [jsUpsert, h, Bool.false_eq_true, if_false]
        rw [List.lookup_cons, List.lookup_cons]
        cases hb : k' == k0 with
        | false => simp only [ih]
        | true =>
            have hk' : k' = k0 := eq_of_beq hb
            subst hk'
            rw [h]
            simp

theorem lookup_eq_none_of_not_mem_keys {K V : Type} [BEq K] [LawfulBEq K]
    {m : List (K × V)} {k : K} (h : k ∉ m.map (·.1)) : m.lookup k = none := by
  induction m with
  | nil => rfl
  | cons p rest ih =>
      obtain ⟨k0, v0⟩ := p
      rw [List.map_cons, List.mem_cons] at h
      push_neg at h
      have hk : (k == k0) = false := by
        rcases Bool.eq_false_or_eq_true (k == k0) with ht | hf
        · exact absurd (eq_of_beq ht) h.1
        · exact hf
      rw [List.lookup_cons, hk]
      exact ih h.2

theorem mem_keys_of_lookup_eq_some {K V : Type} [BEq K] [LawfulBEq K]
    {m : List (K × V)} {k : K} {v : V} (h : m.lookup k = some v) :
    k ∈ m.map (·.1) := by
  by_contra hc
  rw [lookup_eq_none_of_not_mem_keys hc] at h
  cases h

theorem mem_dedupFirstAux {α : Type} [DecidableEq α] {x : α} :
    ∀ {l seen : List α}, x ∈ dedupFirstAux seen l ↔ x ∈ l ∧ x ∉ seen := by
  intro l
  induction l with
  | nil => intro seen; simp [dedupFirstAux]
  | cons a rest ih =>
      intro seen
      unfold dedupFirstAux
      by_cases h : a ∈ seen
      · rw [if_pos h, ih]
        constructor
        · rintro ⟨hx, hs⟩
          exact ⟨List.mem_cons_of_mem _ hx, hs⟩
        · rintro ⟨hx, hs⟩
          rcases List.mem_cons.mp hx with rfl | hx2
          · exact absurd h hs
          · exact ⟨hx2, hs⟩
      · rw [if_neg h]
        constructor
        · intro hmem
          rcases List.mem_cons.mp hmem with rfl | hx2
          · exact ⟨List.mem_cons_self _ _, h⟩
          · obtain ⟨h1, h2⟩ := ih.mp hx2
            exact ⟨List.mem_cons_of_mem _ h1,
              fun hc => h2 (List.mem_cons_of_mem _ hc)⟩
        · rintro ⟨hx, hs⟩
          rcases List.mem_cons.mp hx with rfl | hx2
          · exact List.mem_cons_self _ _
          · by_cases hxa : x = a
            · subst hxa
              exact List.mem_cons_self _ _
            · apply List.mem_cons_of_mem
              apply ih.mpr
              refine ⟨hx2, fun hc => ?_⟩
              rcases List.mem_cons.mp hc with h3 | h4
              · exact hxa h3
              · exact hs h4

theorem mem_dedupFirst {α : Type} [DecidableEq α] {x : α} {l : List α} :
    x ∈ dedupFirst l ↔ x ∈ l := by
  unfold dedupFirst
  rw [mem_dedupFirstAux]
  simp

/-- Under the partition invariant, a barrel only answers for word ids of its
own shard. -/
theorem shard_of_loadBarrel_lookup {barrels : Barrels} (hWF : barrelsWF barrels)
    {j id : Nat} {ps : List Posting}
    (h : (loadBarrel barrels j).lookup id = some ps) : getBarrelIndex id = j := by
  unfold loadBarrel at h
  cases hl : barrels.lookup j with
  | none => rw [hl] at h; cases h
  | some f =>
      rw [hl] at h
      exact hWF _ (mem_of_lookup_eq_some hl) _ (mem_of_lookup_eq_some h)

theorem loadFromBarrel_lookup_sound {barrels : Barrels} {idx : Nat}
    {ids : List Nat} {acc : List (Nat × List Posting)} {id : Nat}
    {ps : List Posting}
    (h : (loadFromBarrel barrels idx ids acc).lookup id = some ps) :
    acc.lookup id = some ps ∨ (loadBarrel barrels idx).lookup id = some ps := by
  unfold loadFromBarrel at h
  induction ids generalizing acc with
  | nil => exact Or.inl h
  | cons id0 rest ih =>
      rw [List.foldl_cons] at h
      cases hb : (loadBarrel barrels idx).lookup id0 with
      | none =>
          rw [hb] at h
          exact ih h
      | some ps0 =>
          rw [hb] at h
          rcases ih h with h1 | h2
          · rw [lookup_jsUpsert] at h1
            by_cases he : (id == id0) = true
            · rw [he] at h1
              cases h1
              have : id = id0 := eq_of_beq he
              subst this
              exact Or.inr hb
            · rw [Bool.not_eq_true] at he
              rw [he] at h1
              simp only [Bool.false_eq_true, if_false] at h1
              exact Or.inl h1
          · exact Or.inr h2

theorem buildLoaded_lookup_sound {barrels : Barrels} {toLoad ids : List Nat}
    {id : Nat} {ps : List Posting}
    (h : (buildLoaded barrels toLoad ids).lookup id = some ps) :
    ∃ j ∈ toLoad, (loadBarrel barrels j).lookup id = some ps := by
  unfold buildLoaded at h
  suffices hgen : ∀ (toL : List Nat) (acc : List (Nat × List Posting)),
      (toL.foldl (fun acc idx => loadFromBarrel barrels idx ids acc) acc).lookup id =
        some ps →
      acc.lookup id = some ps ∨ ∃ j ∈ toL, (loadBarrel barrels j).lookup id = some ps by
    rcases hgen toLoad [] h with h1 | h2
    · cases h1
    · exact h2
  intro toL
  induction toL with
  | nil => intro acc h; exact Or.inl h
  | cons j rest ih =>
      intro acc h
      rw [List.foldl_cons] at h
      rcases ih _ h with h1 | ⟨j', hj', hl⟩
      · rcases loadFromBarrel_lookup_sound h1 with h2 | h3
        · exact Or.inl h2
        · exact Or.inr ⟨j, List.mem_cons_self _ _, h3⟩
      · exact Or.inr ⟨j', List.mem_cons_of_mem _ hj', hl⟩

theorem loadFromBarrel_preserve {barrels : Barrels} (hWF : barrelsWF barrels)
    {id : Nat} {ps : List Posting}
    (hbl : (loadBarrel barrels (getBarrelIndex id)).lookup id = some ps)
    {idx : Nat} {ids : List Nat} {acc : List (Nat × List Posting)}
    (hacc : acc.lookup id = some ps) :
    (loadFromBarrel barrels idx ids acc).lookup id = some ps := by
  unfold loadFromBarrel
  induction ids generalizing acc with
  | nil => exact hacc
  | cons id0 rest ih =>
      rw [List.foldl_cons]
      cases hb : (loadBarrel barrels idx).lookup id0 with
      | none => exact ih hacc
      | some ps0 =>
          apply ih
          rw [lookup_jsUpsert]
          by_cases he : (id == id0) = true
          · have hid : id = id0 := eq_of_beq he
            subst hid
            have hidx : getBarrelIndex id = idx := shard_of_loadBarrel_lookup hWF hb
            rw [hidx] at hbl
            rw [hbl] at hb
            cases hb
            rw [he]
            simp
          · rw [Bool.not_eq_true] at he
            rw [he]
            simpa using hacc

theorem loadFromBarrel_write {barrels : Barrels} (hWF : barrelsWF barrels)
    {id : Nat} {ps : List Posting}
    (hbl : (loadBarrel barrels (getBarrelIndex id)).lookup id = some ps)
    {ids : List Nat} (hid : id ∈ ids) (acc : List (Nat × List Posting)) :
    (loadFromBarrel barrels (getBarrelIndex id) ids acc).lookup id = some ps := by
  induction ids generalizing acc with
  | nil => cases hid
  | cons id0 rest ih =>
      unfold loadFromBarrel
      rw [List.foldl_cons]
      by_cases he : id = id0
      · subst he
        rw [hbl]
        rcases List.mem_cons.mp hid with _ | hrest
        all_goals {
          apply loadFromBarrel_preserve hWF hbl
          rw [lookup_jsUpsert]
          simp
        }
      · rcases List.mem_cons.mp hid with h1 | hrest
        · exact absurd h1 he
        · cases hb : (loadBarrel barrels (getBarrelIndex id)).lookup id0 with
          | none => exact ih hrest acc
          | some ps0 => exact ih hrest _

theorem buildLoaded_complete {barrels : Barrels} (hWF : barrelsWF barrels)
    {toLoad ids : List Nat} {id : Nat} {ps : List Posting}
    (hld : getBarrelIndex id ∈ toLoad) (hid : id ∈ ids)
    (hbl : (loadBarrel barrels (getBarrelIndex id)).lookup id = some ps) :
    (buildLoaded barrels toLoad ids).lookup id = some ps := by
  unfold buildLoaded
  suffices hgen : ∀ (toL : List Nat) (acc : List (Nat × List Posting)),
      (getBarrelIndex id ∈ toL ∨ acc.lookup id = some ps) →
      (toL.foldl (fun acc idx => loadFromBarrel barrels idx ids acc) acc).lookup id =
        some ps by
    exact hgen toLoad [] (Or.inl hld)
  intro toL
  induction toL with
  | nil =>
      intro acc h
      rcases h with h1 | h2
      · cases h1
      · exact h2
  | cons j rest ih =>
      intro acc h
      rw [List.foldl_cons]
      rcases h with h1 | h2
      · rcases List.mem_cons.mp h1 with hj | hrest
        · subst hj
          exact ih _ (Or.inr (loadFromBarrel_write hWF hbl hid acc))
        · exact ih _ (Or.inl hrest)
      · exact ih _ (Or.inr (loadFromBarrel_preserve hWF hbl h2))

/-- Under the partition invariant, the loaded posting table answers exactly
what the word's own barrel holds, for every word id in the needed list. -/
theorem buildLoaded_lookup_iff {barrels : Barrels} (hWF : barrelsWF barrels)
    {ids : List Nat} {id : Nat} (hid : id ∈ ids) {ps : List Posting} :
    (buildLoaded barrels (dedupFirst (ids.map getBarrelIndex)) ids).lookup id =
        some ps ↔
      (loadBarrel barrels (getBarrelIndex id)).lookup id = some ps := by
  constructor
  · intro h
    obtain ⟨j, _, hl⟩ := buildLoaded_lookup_sound h
    have hj := shard_of_loadBarrel_lookup hWF hl
    rw [hj]
    exact hl
  · intro h
    exact buildLoaded_complete hWF
      (mem_dedupFirst.mpr (List.mem_map.mpr ⟨id, hid, rfl⟩)) hid h

theorem mem_keys_addGroupPosting {queryTok w : Str}
    {m2 : List (Str × ScoredPosting)} {p : Posting} {d : Str} :
    d ∈ (addGroupPosting queryTok w m2 p).map (·.1) ↔
      d = p.docId ∨ d ∈ m2.map (·.1) := by
  unfold addGroupPosting
  cases hl : m2.lookup p.docId with
  | none => exact mem_keys_jsUpsert m2 p.docId d _
  | some existing =>
      by_cases hb : ((w == queryTok) && !existing.isExact) = true
      · simp only [hb, if_true]
        exact mem_keys_jsUpsert m2 p.docId d _
      · rw [Bool.not_eq_true] at hb
        simp only [hb, Bool.false_eq_true, if_false]
        constructor
        · exact Or.inr
        · rintro (rfl | hm)
          · exact List.mem_map.mpr ⟨_, mem_of_lookup_eq_some hl, rfl⟩
          · exact hm

theorem mem_keys_groupPostingsFold {queryTok w : Str} {d : Str} :
    ∀ (ps : List Posting) (m2 : List (Str × ScoredPosting)),
      d ∈ ((ps.foldl (addGroupPosting queryTok w) m2).map (·.1)) ↔
        d ∈ m2.map (·.1) ∨ d ∈ ps.map (·.docId) := by
  intro ps
  induction ps with
  | nil =>
      intro m2
      rw [List.foldl_nil, List.map_nil]
      exact (or_iff_left (List.not_mem_nil d)).symm
  | cons p rest ih =>
      intro m2
      rw [List.foldl_cons, ih, mem_keys_addGroupPosting]
      simp only [List.map_cons, List.mem_cons]
      tauto

theorem mem_keys_buildGroupMap {voc : Lexicon}
    {loaded : List (Nat × List Posting)} {qt : Str} {g : List Str} {d : Str} :
    d ∈ (buildGroupMap voc loaded qt g).map (·.1) ↔
      ∃ w ∈ g, ∃ id ps, vocabId voc w = some id ∧ loaded.lookup id = some ps ∧
        d ∈ ps.map (·.docId) := by
  unfold buildGroupMap
  suffices hgen : ∀ (gs : List Str) (m : List (Str × ScoredPosting)),
      d ∈ ((gs.foldl (groupWordStep voc loaded qt) m).map (·.1)) ↔
        d ∈ m.map (·.1) ∨
          ∃ w ∈ gs, ∃ id ps, vocabId voc w = some id ∧
            loaded.lookup id = some ps ∧ d ∈ ps.map (·.docId) by
    rw [hgen g []]
    rw [List.map_nil]
    exact or_iff_right (List.not_mem_nil d)
  intro gs
  induction gs with
  | nil =>
      intro m
      rw [List.foldl_nil]
      constructor
      · exact Or.inl
      · rintro (hm | ⟨w', hw', _⟩)
        · exact hm
        · cases hw'
  | cons w ws ih =>
      intro m
      rw [List.foldl_cons]
      cases hv : vocabId voc w with
      | none =>
          rw [groupWordStep_none hv, ih]
          constructor
          · rintro (hm | hrest)
            · exact Or.inl hm
            · exact Or.inr (by
                obtain ⟨w', hw', rest⟩ := hrest
                exact ⟨w', List.mem_cons_of_mem _ hw', rest⟩)
          · rintro (hm | ⟨w', hw', id, ps, hvoc, hload, hdoc⟩)
            · exact Or.inl hm
            · rcases List.mem_cons.mp hw' with rfl | hw2
              · rw [hv] at hvoc
                cases hvoc
              · exact Or.inr ⟨w', hw2, id, ps, hvoc, hload, hdoc⟩
      | some id =>
          cases hld : loaded.lookup id with
          | none =>
              rw [groupWordStep_missing hv hld, ih]
              constructor
              · rintro (hm | hrest)
                · exact Or.inl hm
                · exact Or.inr (by
                    obtain ⟨w', hw', rest⟩ := hrest
                    exact ⟨w', List.mem_cons_of_mem _ hw', rest⟩)
              · rintro (hm | ⟨w', hw', id', ps, hvoc, hload, hdoc⟩)
                · exact Or.inl hm
                · rcases List.mem_cons.mp hw' with rfl | hw2
                  · rw [hv] at hvoc
                    cases hvoc
                    rw [hld] at hload
                    cases hload
                  · exact Or.inr ⟨w', hw2, id', ps, hvoc, hload, hdoc⟩
          | some ps =>
              rw [groupWordStep_found hv hld, ih, mem_keys_groupPostingsFold]
              constructor
              · rintro ((hm | hps) | hrest)
                · exact Or.inl hm
                · exact Or.inr ⟨w, List.mem_cons_self _ _, id, ps, hv, hld, hps⟩
                · exact Or.inr (by
                    obtain ⟨w', hw', rest⟩ := hrest
                    exact ⟨w', List.mem_cons_of_mem _ hw', rest⟩)
              · rintro (hm | ⟨w', hw', id', ps', hvoc, hload, hdoc⟩)
                · exact Or.inl (Or.inl hm)
                · rcases List.mem_cons.mp hw' with rfl | hw2
                  · rw [hv] at hvoc
                    cases hvoc
                    rw [hld] at hload
                    cases hload
                    exact Or.inl (Or.inr hdoc)
                  · exact Or.inr ⟨w', hw2, id', ps', hvoc, hload, hdoc⟩

theorem lookup_isSome_of_mem_keys {K V : Type} [BEq K] [LawfulBEq K]
    {m : List (K × V)} {k : K} (h : k ∈ m.map (·.1)) :
    ∃ v, m.lookup k = some v := by
  induction m with
  | nil => cases h
  | cons p rest ih =>
      obtain ⟨k0, v0⟩ := p
      rw [List.map_cons, List.mem_cons] at h
      by_cases hk : (k == k0) = true
      · exact ⟨v0, by rw [List.lookup_cons, hk]⟩
      · rcases h with h1 | h2
        · exact absurd (by rw [h1]; exact beq_self_eq_true k0) hk
        · obtain ⟨v, hv⟩ := ih h2
          rw [Bool.not_eq_true] at hk
          exact ⟨v, by rw [List.lookup_cons, hk]; exact hv⟩

theorem mem_keys_intersectStep {cand : List (Str × List ScoredPosting)}
    {next : List (Str × ScoredPosting)} {d : Str} :
    d ∈ (intersectStep cand next).map (·.1) ↔
      d ∈ cand.map (·.1) ∧ d ∈ next.map (·.1) := by
  unfold intersectStep
  suffices hgen : ∀ (c : List (Str × List ScoredPosting))
      (acc : List (Str × List ScoredPosting)),
      d ∈ ((c.foldl
        (fun acc dp =>
          match next.lookup dp.1 with
          | some p2 => acc ++ [(dp.1, dp.2 ++ [p2])]
          | none => acc) acc).map (·.1)) ↔
        d ∈ acc.map (·.1) ∨ (d ∈ c.map (·.1) ∧ d ∈ next.map (·.1)) by
    rw [hgen cand [], List.map_nil]
    exact or_iff_right (List.not_mem_nil d)
  intro c
  induction c with
  | nil =>
      intro acc
      rw [List.foldl_nil, List.map_nil]
      constructor
      · exact Or.inl
      · rintro (hm | ⟨hc, _⟩)
        · exact hm
        · cases hc
  | cons dp rest ih =>
      intro acc
      rw [List.foldl_cons]
      cases hl : next.lookup dp.1 with
      | none =>
          rw [ih]
          simp only [List.map_cons, List.mem_cons]
          constructor
          · rintro (hm | hrest)
            · exact Or.inl hm
            · exact Or.inr ⟨Or.inr hrest.1, hrest.2⟩
          · rintro (hm | ⟨hd, hn⟩)
            · exact Or.inl hm
            · rcases hd with rfl | hd2
              · obtain ⟨v, hv⟩ := lookup_isSome_of_mem_keys hn
                rw [hl] at hv
                cases hv
              · exact Or.inr ⟨hd2, hn⟩
      | some p2 =>
          rw [ih]
          simp only [List.map_append, List.map_cons, List.mem_cons,
            List.mem_append]
          constructor
          · rintro ((hm | hd) | hrest)
            · exact Or.inl hm
            · rcases hd with rfl | h0
              · exact Or.inr ⟨Or.inl rfl, mem_keys_of_lookup_eq_some hl⟩
              · cases h0
            · exact Or.inr ⟨Or.inr hrest.1, hrest.2⟩
          · rintro (hm | ⟨hd, hn⟩)
            · exact Or.inl (Or.inl hm)
            · rcases hd with rfl | hd2
              · exact Or.inl (Or.inr (Or.inl rfl))
              · exact Or.inr ⟨hd2, hn⟩

theorem mem_keys_intersectRest {d : Str} :
    ∀ (gs : List (List (Str × ScoredPosting)))
      (cand : List (Str × List ScoredPosting)),
      d ∈ (intersectRest cand gs).map (·.1) ↔
        d ∈ cand.map (·.1) ∧ ∀ g ∈ gs, d ∈ g.map (·.1) := by
  intro gs
  induction gs with
  | nil =>
      intro cand
      constructor
      · intro h
        exact ⟨h, fun g hg => absurd hg (List.not_mem_nil g)⟩
      · exact fun h => h.1
  | cons g rest ih =>
      intro cand
      unfold intersectRest
      by_cases hemp : (intersectStep cand g).isEmpty
      · rw [if_pos hemp]
        have hnil : intersectStep cand g = [] := List.isEmpty_iff.mp hemp
        rw [hnil, List.map_nil]
        constructor
        · intro hc
          cases hc
        · rintro ⟨hcand, hall⟩
          have hmem : d ∈ (intersectStep cand g).map (·.1) :=
            mem_keys_intersectStep.mpr ⟨hcand, hall g (List.mem_cons_self _ _)⟩
          rw [hnil] at hmem
          cases hmem
      · rw [if_neg hemp, ih, mem_keys_intersectStep]
        constructor
        · rintro ⟨⟨hc, hg⟩, hrest⟩
          exact ⟨hc, fun g' hg' => by
            rcases List.mem_cons.mp hg' with rfl | hg2
            · exact hg
            · exact hrest g' hg2⟩
        · rintro ⟨hc, hall⟩
          exact ⟨⟨hc, hall g (List.mem_cons_self _ _)⟩,
            fun g' hg' => hall g' (List.mem_cons_of_mem _ hg')⟩

theorem mem_keys_intersectAll {g0 : List (Str × ScoredPosting)}
    {rest : List (List (Str × ScoredPosting))} {d : Str} :
    d ∈ (intersectAll (g0 :: rest)).map (·.1) ↔
      ∀ g ∈ g0 :: rest, d ∈ g.map (·.1) := by
  unfold intersectAll
  rw [mem_keys_intersectRest]
  have hkeys : (g0.map (fun dp => (dp.1, [dp.2]))).map (·.1) = g0.map (·.1) := by
    rw [List.map_map]
    rfl
  rw [hkeys]
  constructor
  · rintro ⟨h0, hrest⟩ g hg
    rcases List.mem_cons.mp hg with rfl | hg2
    · exact h0
    · exact hrest g hg2
  · intro hall
    exact ⟨hall g0 (List.mem_cons_self _ _),
      fun g hg => hall g (List.mem_cons_of_mem _ hg)⟩

theorem zip_map_self {α β γ : Type} (f : α → β) (g : α × β → γ) (l : List α) :
    (l.zip (l.map f)).map g = l.map (fun a => g (a, f a)) := by
  induction l with
  | nil => rfl
  | cons a rest ih => simp [List.zip_cons_cons, ih]

/-- Bridge for one group: the group's candidate map contains a document iff
some word of the group has a posting for it in the word's own barrel. -/
theorem keys_groupMap_iff_hasPosting {voc : Lexicon} {barrels : Barrels}
    {syn : Str → List Str} {qts : List Str} (hWF : barrelsWF barrels)
    {t : Str} (ht : t ∈ qts) {d : Str} :
    d ∈ (buildGroupMap voc
        (buildLoaded barrels
          (dedupFirst ((allWordIdsOf voc (getQueryGroups syn qts)).map getBarrelIndex))
          (allWordIdsOf voc (getQueryGroups syn qts)))
        t (dedupFirst (t :: syn t))).map (·.1) ↔
      ∃ w ∈ dedupFirst (t :: syn t), hasPostingFor voc barrels w d := by
  rw [mem_keys_buildGroupMap]
  constructor
  · rintro ⟨w, hw, id, ps, hvoc, hload, hdoc⟩
    have hid : id ∈ allWordIdsOf voc (getQueryGroups syn qts) :=
      List.mem_flatMap.mpr ⟨dedupFirst (t :: syn t),
        List.mem_map.mpr ⟨t, ht, rfl⟩, List.mem_filterMap.mpr ⟨w, hw, hvoc⟩⟩
    exact ⟨w, hw, id, ps, hvoc, (buildLoaded_lookup_iff hWF hid).mp hload, hdoc⟩
  · rintro ⟨w, hw, id, ps, hvoc, hbar, hdoc⟩
    have hid : id ∈ allWordIdsOf voc (getQueryGroups syn qts) :=
      List.mem_flatMap.mpr ⟨dedupFirst (t :: syn t),
        List.mem_map.mpr ⟨t, ht, rfl⟩, List.mem_filterMap.mpr ⟨w, hw, hvoc⟩⟩
    exact ⟨w, hw, id, ps, hvoc, (buildLoaded_lookup_iff hWF hid).mpr hbar, hdoc⟩

/-- The documents of the intersected candidate map are exactly those matched
by every group. -/
theorem mem_keys_candidatesOf {voc : Lexicon} {barrels : Barrels}
    {syn : Str → List Str} {qts : List Str} (hWF : barrelsWF barrels)
    (hq : qts ≠ []) {d : Str} :
    d ∈ (candidatesOf voc barrels syn qts).map (·.1) ↔
      ∀ g ∈ getQueryGroups syn qts, ∃ w ∈ g, hasPostingFor voc barrels w d := by
  unfold candidatesOf
  have hgd : groupDocsOf voc barrels syn qts =
      qts.map (fun t => buildGroupMap voc
        (buildLoaded barrels
          (dedupFirst ((allWordIdsOf voc (getQueryGroups syn qts)).map getBarrelIndex))
          (allWordIdsOf voc (getQueryGroups syn qts)))
        t (dedupFirst (t :: syn t))) := by
    unfold groupDocsOf
    exact zip_map_self _ _ qts
  have hperm := List.perm_insertionSort sizeAscRel (groupDocsOf voc barrels syn qts)
  cases hs : (groupDocsOf voc barrels syn qts).insertionSort sizeAscRel with
  | nil =>
      rw [hs] at hperm
      have : groupDocsOf voc barrels syn qts = [] := hperm.symm.eq_nil
      rw [hgd] at this
      cases hqts : qts with
      | nil => exact absurd hqts hq
      | cons t rest =>
          rw [hqts] at this
          cases this
  | cons M0 rest =>
      rw [mem_keys_intersectAll]
      rw [hs] at hperm
      constructor
      · intro hall g hg
        obtain ⟨t, ht, rfl⟩ := List.mem_map.mp hg
        have hM : (buildGroupMap voc
            (buildLoaded barrels
              (dedupFirst ((allWordIdsOf voc (getQueryGroups syn qts)).map getBarrelIndex))
              (allWordIdsOf voc (getQueryGroups syn qts)))
            t (dedupFirst (t :: syn t))) ∈ M0 :: rest := by
          apply hperm.mem_iff.mpr
          rw [hgd]
          exact List.mem_map.mpr ⟨t, ht, rfl⟩
        exact (keys_groupMap_iff_hasPosting hWF ht).mp (hall _ hM)
      · intro hall M hM
        have hM2 : M ∈ groupDocsOf voc barrels syn qts := hperm.mem_iff.mp hM
        rw [hgd] at hM2
        obtain ⟨t, ht, rfl⟩ := List.mem_map.mp hM2
        exact (keys_groupMap_iff_hasPosting hWF ht).mpr
          (hall _ (List.mem_map.mpr ⟨t, ht, rfl⟩))

/-- C1: with well-partitioned barrels and a query with at least one accepted
token, a document appears in the result list iff, for every term group, at
least one word of the group has a posting for that document; and on the S4
corpus (`d4` contains only `deep`, `d5` only `learning`) the query
`deep learning` has `totalResults = 0`. -/
theorem c1_conjunctive_search :
    (∀ (voc : Lexicon) (barrels : Barrels) (syn : Str → List Str) (q : Str)
        (d : Str), barrelsWF barrels → tokenizeQuery q ≠ [] →
      (d ∈ (executeSearch voc barrels syn q).results.map (·.docId) ↔
        ∀ g ∈ getQueryGroups syn (tokenizeQuery q), ∃ w ∈ g,
          hasPostingFor voc barrels w d)) ∧
    (search ⟨some vocS4, some dsS4, barS4⟩ noSyn "deep learning".toList 1 10).toOption.map
        SearchOut.totalResults = some (some 0) := by
  constructor
  · intro voc barrels syn q d hWF hq
    have hiff := @mem_keys_candidatesOf voc barrels syn (tokenizeQuery q) hWF hq d
    rcases executeSearch_results_cases voc barrels syn q with ⟨hres, hraw⟩ | hres
    · rw [hres]
      rw [← hiff]
      constructor
      · intro hc
        cases hc
      · intro hc
        have : d ∈ (rawResultsOf (tokenizeQuery q)
            (candidatesOf voc barrels syn (tokenizeQuery q))).map (·.docId) := by
          unfold rawResultsOf
          rw [List.map_map]
          exact hc
        rw [hraw] at this
        cases this
    · rw [hres]
      rw [← hiff]
      constructor
      · intro hmem
        obtain ⟨r, hr, hrd⟩ := List.mem_map.mp hmem
        have hr2 := (List.mem_insertionSort scoreDescRel).mp hr
        unfold rawResultsOf at hr2
        obtain ⟨dps, hdps, hre⟩ := List.mem_map.mp hr2
        rw [← hrd, ← hre]
        exact List.mem_map.mpr ⟨dps, hdps, rfl⟩
      · intro hmem
        obtain ⟨dps, hdps, hdd⟩ := List.mem_map.mp hmem
        apply List.mem_map.mpr
        refine ⟨⟨dps.1, totalScoreOf dps.2, dps.2.length,
          if dps.2.countP (·.isExact) = (tokenizeQuery q).length then "Exact".toList
          else "Semantic".toList⟩, ?_, hdd⟩
        apply (List.mem_insertionSort scoreDescRel).mpr
        unfold rawResultsOf
        exact List.mem_map.mpr ⟨dps, hdps, rfl⟩
  · rfl

/-- Witness for C1 on a concrete well-partitioned corpus: `d4` matches the
one-group query `deep`. -/
theorem c1_conjunctive_search_witness :
    "d4".toList ∈ (executeSearch vocS4 barS4 noSyn "deep".toList).results.map (·.docId) ↔
      ∀ g ∈ getQueryGroups noSyn (tokenizeQuery "deep".toList), ∃ w ∈ g,
        hasPostingFor vocS4 barS4 w "d4".toList :=
  c1_conjunctive_search.1 vocS4 barS4 noSyn "deep".toList "d4".toList
    (by unfold barrelsWF; decide) (by decide)

/-! ## C6: findSynonyms -/

theorem synStep_self (M : SemanticModel) (vec : List ℚ) (w : Str)
    (acc : List (Str × ℚ)) (word : Str) (h : (word == w) = true) :
    synStep M vec w acc word = acc := by
  unfold synStep
  rw [h]
  rfl

theorem synStep_no_vector (M : SemanticModel) (vec : List ℚ) (w : Str)
    (acc : List (Str × ℚ)) (word : Str) (h : (word == w) = false)
    (h2 : M.vectors.lookup word = none) :
    synStep M vec w acc word = acc := by
  unfold synStep
  rw [h]
  show (match M.vectors.lookup word with
    | some v =>
        if SIM_THRESHOLD_SQ ≤ simScore vec v then acc ++ [(word, simScore vec v)]
        else acc
    | none => acc) = acc
  rw [h2]

theorem synStep_keep (M : SemanticModel) (vec : List ℚ) (w : Str)
    (acc : List (Str × ℚ)) (word : Str) (v : List ℚ) (h : (word == w) = false)
    (h2 : M.vectors.lookup word = some v)
    (h3 : SIM_THRESHOLD_SQ ≤ simScore vec v) :
    synStep M vec w acc word = acc ++ [(word, simScore vec v)] := by
  unfold synStep
  rw [h]
  show (match M.vectors.lookup word with
    | some v =>
        if SIM_THRESHOLD_SQ ≤ simScore vec v then acc ++ [(word, simScore vec v)]
        else acc
    | none => acc) = acc ++ [(word, simScore vec v)]
  rw [h2]
  exact if_pos h3

theorem synStep_drop (M : SemanticModel) (vec : List ℚ) (w : Str)
    (acc : List (Str × ℚ)) (word : Str) (v : List ℚ) (h : (word == w) = false)
    (h2 : M.vectors.lookup word = some v)
    (h3 : ¬ SIM_THRESHOLD_SQ ≤ simScore vec v) :
    synStep M vec w acc word = acc := by
  unfold synStep
  rw [h]
  show (match M.vectors.lookup word with
    | some v =>
        if SIM_THRESHOLD_SQ ≤ simScore vec v then acc ++ [(word, simScore vec v)]
        else acc
    | none => acc) = acc
  rw [h2]
  exact if_neg h3

theorem mem_synFold (M : SemanticModel) (vec : List ℚ) (w : Str) (p : Str × ℚ) :
    ∀ (ws : List Str) (acc : List (Str × ℚ)),
      p ∈ ws.foldl (synStep M vec w) acc →
      p ∈ acc ∨ (p.1 ≠ w ∧ ∃ v, M.vectors.lookup p.1 = some v ∧
        p.2 = simScore vec v ∧ SIM_THRESHOLD_SQ ≤ simScore vec v)
  | [], _, h => Or.inl h
  | word :: ws, acc, h => by
      rw [List.foldl_cons] at h
      rcases mem_synFold M vec w p ws (synStep M vec w acc word) h with h2 | h2
      · cases hw : (word == w) with
        | true =>
            rw [synStep_self M vec w acc word hw] at h2
            exact Or.inl h2
        | false =>
            cases hl : M.vectors.lookup word with
            | none =>
                rw [synStep_no_vector M vec w acc word hw hl] at h2
                exact Or.inl h2
            | some v =>
                by_cases h3 : SIM_THRESHOLD_SQ ≤ simScore vec v
                · rw [synStep_keep M vec w acc word v hw hl h3] at h2
                  rcases List.mem_append.mp h2 with h4 | h4
                  · exact Or.inl h4
                  · have hpe : p = (word, simScore vec v) := List.mem_singleton.mp h4
                    subst hpe
                    refine Or.inr ⟨?_, v, hl, rfl, h3⟩
                    intro he
                    have he2 : word = w := he
                    rw [he2, beq_self_eq_true] at hw
                    cases hw
                · rw [synStep_drop M vec w acc word v hw hl h3] at h2
                  exact Or.inl h2
      · exact Or.inr h2

/-- Every emitted synonym candidate is a non-input word whose stored vector
reaches the similarity threshold, carrying exactly that similarity. -/
theorem mem_synonymCandidates {M : SemanticModel} {vec : List ℚ} {w : Str}
    {p : Str × ℚ} (hp : p ∈ synonymCandidates M vec w) :
    p.1 ≠ w ∧ ∃ v, M.vectors.lookup p.1 = some v ∧
      p.2 = simScore vec v ∧ SIM_THRESHOLD_SQ ≤ simScore vec v := by
  unfold synonymCandidates at hp
  rcases mem_synFold M vec w p M.vocab [] hp with h | h
  · cases h
  · exact h

/-- The similarity a candidate carries is `simOf` of its word. -/
theorem simOf_of_candidate {M : SemanticModel} {vec : List ℚ} {w : Str}
    {p : Str × ℚ} (hp : p ∈ synonymCandidates M vec w) :
    p.2 = simOf M vec p.1 ∧ SIM_THRESHOLD_SQ ≤ simOf M vec p.1 := by
  obtain ⟨-, v, hl, hs, ht⟩ := mem_synonymCandidates hp
  have : simOf M vec p.1 = simScore vec v := by
    unfold simOf
    rw [hl]
    rfl
  rw [this]
  exact ⟨hs, ht⟩

/-- C6 counterexample: three loaded words with identical vectors, vocab
(load) order `aaa, zzz, yyy`. All pairwise similarities are equal, so the
top-3 of `findSynonyms "aaa"` are all ties; the stable sort keeps load
order `zzz, yyy`, not the lexicographic order `yyy, zzz` the spec claims. -/
theorem c6_tiebreak_counterexample :
    findSynonyms modelTie "aaa".toList = ["zzz".toList, "yyy".toList] ∧
    simOf modelTie [1, 0] "zzz".toList = simOf modelTie [1, 0] "yyy".toList ∧
    "yyy".toList < "zzz".toList :=
  ⟨rfl, rfl, by decide⟩

/-- C6 (amended): `findSynonyms` returns `[]` when the model is not loaded
or the word has no vector; otherwise it returns at most `MAX_SYNONYMS`
words, each distinct from the input with similarity at least the threshold,
in descending similarity order (ties keep vector load order — there is no
lexicographic tie-break). -/
theorem c6_find_synonyms :
    (∀ (M : SemanticModel) (w : Str),
      M.isLoaded = false ∨ M.vectors.lookup w = none → findSynonyms M w = []) ∧
    (∀ (M : SemanticModel) (w : Str) (vec : List ℚ),
      M.vectors.lookup w = some vec →
      (findSynonyms M w).length ≤ MAX_SYNONYMS ∧
      (∀ s ∈ findSynonyms M w, s ≠ w ∧ SIM_THRESHOLD_SQ ≤ simOf M vec s) ∧
      List.Pairwise (fun a b => simOf M vec b ≤ simOf M vec a)
        (findSynonyms M w)) := by
  constructor
  · intro M w h
    cases hL : M.isLoaded with
    | false =>
        unfold findSynonyms
        rw [hL]
        rfl
    | true =>
        rcases h with h | h
        · rw [hL] at h
          cases h
        · unfold findSynonyms
          rw [hL]
          show (match M.vectors.lookup w with
            | none => []
            | some inputVec =>
                (((synonymCandidates M inputVec w).insertionSort
                  synDescRel).take MAX_SYNONYMS).map (·.1)) = []
          rw [h]
  · intro M w vec hv
    cases hL : M.isLoaded with
    | false =>
        have he : findSynonyms M w = [] := by
          unfold findSynonyms
          rw [hL]
          rfl
        rw [he]
        refine ⟨by simp [MAX_SYNONYMS], ?_, List.Pairwise.nil⟩
        intro s hs
        cases hs
    | true =>
        have he : findSynonyms M w =
            (((synonymCandidates M vec w).insertionSort
              synDescRel).take MAX_SYNONYMS).map (·.1) := by
          unfold findSynonyms
          rw [hL]
          show (match M.vectors.lookup w with
            | none => []
            | some inputVec =>
                (((synonymCandidates M inputVec w).insertionSort
                  synDescRel).take MAX_SYNONYMS).map (fun p => p.1)) =
            (((synonymCandidates M vec w).insertionSort
              synDescRel).take MAX_SYNONYMS).map (fun p => p.1)
          rw [hv]
        have hmemc : ∀ p ∈ ((synonymCandidates M vec w).insertionSort
            synDescRel).take MAX_SYNONYMS, p ∈ synonymCandidates M vec w := by
          intro p hp
          exact (List.mem_insertionSort synDescRel).mp (List.mem_of_mem_take hp)
        refine ⟨?_, ?_, ?_⟩
        · rw [he, List.length_map, List.length_take]
          exact min_le_left _ _
        · intro s hs
          rw [he] at hs
          obtain ⟨p, hp, rfl⟩ := List.mem_map.mp hs
          have hc := hmemc p hp
          obtain ⟨hne, -⟩ := mem_synonymCandidates hc
          obtain ⟨-, ht⟩ := simOf_of_candidate hc
          exact ⟨hne, ht⟩
        · rw [he]
          apply List.pairwise_map.mpr
          have hsorted : List.Pairwise synDescRel
              (((synonymCandidates M vec w).insertionSort
                synDescRel).take MAX_SYNONYMS) :=
            List.Pairwise.sublist (List.take_sublist _ _)
              (List.sorted_insertionSort synDescRel (synonymCandidates M vec w))
          refine List.Pairwise.imp_of_mem ?_ hsorted
          intro a b ha hb hab
          obtain ⟨hsa, -⟩ := simOf_of_candidate (hmemc a ha)
          obtain ⟨hsb, -⟩ := simOf_of_candidate (hmemc b hb)
          rw [← hsa, ← hsb]
          exact hab

/-- Witness for C6 at the tie model: the word `aaa` has a loaded vector. -/
theorem c6_find_synonyms_witness :
    findSynonyms ⟨[], [], false⟩ "aaa".toList = [] ∧
    ((findSynonyms modelTie "aaa".toList).length ≤ MAX_SYNONYMS ∧
      (∀ s ∈ findSynonyms modelTie "aaa".toList,
        s ≠ "aaa".toList ∧ SIM_THRESHOLD_SQ ≤ simOf modelTie [1, 0] s) ∧
      List.Pairwise (fun a b => simOf modelTie [1, 0] b ≤ simOf modelTie [1, 0] a)
        (findSynonyms modelTie "aaa".toList)) :=
  ⟨c6_find_synonyms.1 ⟨[], [], false⟩ "aaa".toList (Or.inl rfl),
   c6_find_synonyms.2 modelTie "aaa".toList [1, 0] rfl⟩

/-! ## C10: batch article with no indexable token -/

theorem mem_jsUpsert_val {K V : Type} [BEq K] [LawfulBEq K]
    (m : List (K × V)) (k : K) (v : V)
    {p : K × V} (hp : p ∈ jsUpsert m k v) : p ∈ m ∨ p = (k, v) := by
  induction m with
  | nil =>
      rw [jsUpsert] at hp
      exact Or.inr (List.mem_singleton.mp hp)
  | cons q rest ih =>
      obtain ⟨k0, v0⟩ := q
      by_cases hb : (k0 == k) = true
      · simp only [jsUpsert, hb, if_true] at hp
        rcases List.mem_cons.mp hp with h | h
        · exact Or.inr (by rw [h, eq_of_beq hb])
        · exact Or.inl (List.mem_cons_of_mem _ h)
      · rw [Bool.not_eq_true] at hb
        simp only [jsUpsert, hb, Bool.false_eq_true, if_false] at hp
        rcases List.mem_cons.mp hp with h | h
        · exact Or.inl (by rw [h]; exact List.mem_cons_self _ _)
        · rcases ih h with h2 | h2
          · exact Or.inl (List.mem_cons_of_mem _ h2)
          · exact Or.inr h2

theorem lookup_mem_pair {K V : Type} [BEq K] [LawfulBEq K] :
    ∀ {m : List (K × V)} {k : K} {v : V}, m.lookup k = some v → (k, v) ∈ m
  | [], _, _, h => by cases h
  | (k0, v0) :: rest, k, v, h => by
      rw [List.lookup_cons] at h
      cases hb : k == k0 with
      | true =>
          rw [hb] at h
          have hv : some v0 = some v := h
          have hk : k = k0 := eq_of_beq hb
          subst hk
          rw [Option.some.injEq] at hv
          rw [← hv]
          exact List.mem_cons_self _ _
      | false =>
          rw [hb] at h
          have h' : rest.lookup k = some v := h
          exact List.mem_cons_of_mem _ (lookup_mem_pair h')

theorem keys_jsUpsert_nodup {K V : Type} [BEq K] [LawfulBEq K] :
    ∀ {m : List (K × V)}, ((m.map (·.1)).Nodup) → ∀ (k : K) (v : V),
      ((jsUpsert m k v).map (·.1)).Nodup
  | [], _, k, v => by simp [jsUpsert]
  | (k0, v0) :: rest, h, k, v => by
      rw [List.map_cons, List.nodup_cons] at h
      by_cases hb : (k0 == k) = true
      · simp only [jsUpsert, hb, if_true]
        rw [List.map_cons, List.nodup_cons]
        exact ⟨h.1, h.2⟩
      · rw [Bool.not_eq_true] at hb
        simp only [jsUpsert, hb, Bool.false_eq_true, if_false]
        rw [List.map_cons, List.nodup_cons]
        refine ⟨?_, keys_jsUpsert_nodup h.2 k v⟩
        intro hc
        rcases (mem_keys_jsUpsert rest k k0 v).mp hc with h1 | h1
        · rw [h1, beq_self_eq_true] at hb
          cases hb
        · exact h.1 h1

theorem lookup_jsMerge_of_not_mem {K V : Type} [BEq K] [LawfulBEq K] :
    ∀ {b : List (K × V)} (ds : List (K × V)) {k : K}, k ∉ b.map (·.1) →
      (jsMerge ds b).lookup k = ds.lookup k
  | [], _, _, _ => rfl
  | kv :: b', ds, k, h => by
      rw [List.map_cons, List.mem_cons] at h
      push_neg at h
      show (jsMerge (jsUpsert ds kv.1 kv.2) b').lookup k = ds.lookup k
      rw [lookup_jsMerge_of_not_mem (jsUpsert ds kv.1 kv.2) h.2, lookup_jsUpsert]
      have hb : (k == kv.1) = false := beq_eq_false_iff_ne.mpr h.1
      rw [hb]
      simp

theorem lookup_jsMerge_right {K V : Type} [BEq K] [LawfulBEq K] :
    ∀ {b : List (K × V)} (ds : List (K × V)) {k : K} {v : V},
      (b.map (·.1)).Nodup → b.lookup k = some v → (jsMerge ds b).lookup k = some v
  | [], _, _, _, _, h => by cases h
  | (k0, v0) :: b', ds, k, v, hnd, h => by
      rw [List.map_cons, List.nodup_cons] at hnd
      rw [List.lookup_cons] at h
      show (jsMerge (jsUpsert ds k0 v0) b').lookup k = some v
      cases hb : k == k0 with
      | true =>
          rw [hb] at h
          have hv : some v0 = some v := h
          have hk : k = k0 := eq_of_beq hb
          subst hk
          rw [lookup_jsMerge_of_not_mem (jsUpsert ds k v0) hnd.1, lookup_jsUpsert,
            beq_self_eq_true, if_pos rfl]
          exact hv
      | false =>
          rw [hb] at h
          have h' : b'.lookup k = some v := h
          exact lookup_jsMerge_right (jsUpsert ds k0 v0) hnd.2 h'

theorem mem_keys_jsMerge_cases {K V : Type} [BEq K] [LawfulBEq K] :
    ∀ {b : List (K × V)} (a : List (K × V)) {k : K},
      k ∈ (jsMerge a b).map (·.1) → k ∈ a.map (·.1) ∨ k ∈ b.map (·.1)
  | [], _, _, h => Or.inl h
  | kv :: b', a, k, h => by
      have h' : k ∈ (jsMerge (jsUpsert a kv.1 kv.2) b').map (·.1) := h
      rcases mem_keys_jsMerge_cases (jsUpsert a kv.1 kv.2) h' with h1 | h1
      · rcases (mem_keys_jsUpsert a kv.1 k kv.2).mp h1 with h2 | h2
        · exact Or.inr (by rw [List.map_cons, h2]; exact List.mem_cons_self _ _)
        · exact Or.inl h2
      · exact Or.inr (by rw [List.map_cons]; exact List.mem_cons_of_mem _ h1)

theorem metaFold_lookup {i : Str} {v : DocRecord} :
    ∀ {l : List Article} (m : List (Str × DocRecord)),
      (∀ b ∈ l, jsStr b.id ≠ some i) → m.lookup i = some v →
      (l.foldl metaStep m).lookup i = some v
  | [], _, _, hm => hm
  | b :: l', m, h, hm => by
      rw [List.foldl_cons]
      apply metaFold_lookup (metaStep m b)
        (fun c hc => h c (List.mem_cons_of_mem _ hc))
      cases hib : jsStr b.id with
      | none => rw [metaStep_none hib]; exact hm
      | some j =>
          rw [metaStep_some hib, lookup_jsUpsert]
          have hne : j ≠ i := fun he => h b (List.mem_cons_self _ _) (by rw [hib, he])
          have hb : (i == j) = false := beq_eq_false_iff_ne.mpr (fun he => hne he.symm)
          rw [hb, if_neg (by decide)]
          exact hm

theorem keys_metaFold_nodup :
    ∀ (l : List Article) (m : List (Str × DocRecord)),
      (m.map (·.1)).Nodup → ((l.foldl metaStep m).map (·.1)).Nodup
  | [], _, h => h
  | b :: l', m, h => by
      rw [List.foldl_cons]
      apply keys_metaFold_nodup l'
      cases hib : jsStr b.id with
      | none => rw [metaStep_none hib]; exact h
      | some j => rw [metaStep_some hib]; exact keys_jsUpsert_nodup h j (mkRecord b)

theorem foldTok_skipped (ftype : Nat) :
    ∀ (toks : List Str) (st : TokState),
      (∀ t ∈ toks, skippedTok t = true) →
      (toks.foldl (processTok ftype) st).lexicon = st.lexicon ∧
      (toks.foldl (processTok ftype) st).nextId = st.nextId ∧
      (toks.foldl (processTok ftype) st).docEntry = st.docEntry
  | [], _, _ => ⟨rfl, rfl, rfl⟩
  | tok :: toks, st, h => by
      rw [List.foldl_cons]
      have h1 : skippedTok tok = true := h tok (List.mem_cons_self _ _)
      have hstep : processTok ftype st tok = { st with pos := st.pos + 1 } := by
        unfold processTok
        rw [h1]
        rfl
      rw [hstep]
      exact foldTok_skipped ftype toks _ (fun t ht => h t (List.mem_cons_of_mem _ ht))

theorem foldFields_skipped :
    ∀ (fs : List (Str × Nat)) (st : TokState),
      (∀ f ∈ fs, ∀ t ∈ matchRuns (jsToLower f.1), skippedTok t = true) →
      ((fs.foldl (fun st f => (matchRuns (jsToLower f.1)).foldl (processTok f.2) st)
          st).lexicon = st.lexicon ∧
       (fs.foldl (fun st f => (matchRuns (jsToLower f.1)).foldl (processTok f.2) st)
          st).nextId = st.nextId ∧
       (fs.foldl (fun st f => (matchRuns (jsToLower f.1)).foldl (processTok f.2) st)
          st).docEntry = st.docEntry)
  | [], _, _ => ⟨rfl, rfl, rfl⟩
  | f :: fs, st, h => by
      rw [List.foldl_cons]
      obtain ⟨h1, h2, h3⟩ := foldTok_skipped f.2 (matchRuns (jsToLower f.1)) st
        (h f (List.mem_cons_self _ _))
      obtain ⟨g1, g2, g3⟩ := foldFields_skipped fs
        ((matchRuns (jsToLower f.1)).foldl (processTok f.2) st)
        (fun f' hf' => h f' (List.mem_cons_of_mem _ hf'))
      exact ⟨g1.trans h1, g2.trans h2, g3.trans h3⟩

/-- An article all of whose tokens are skipped leaves the lexicon and next id
untouched and produces an empty forward entry. -/
theorem tokenizeArticle_skipped {a : Article} (h : articleAcceptedToks a = [])
    (lex : Lexicon) (nid : Nat) :
    (tokenizeArticle a lex nid).lexicon = lex ∧
    (tokenizeArticle a lex nid).nextId = nid ∧
    (tokenizeArticle a lex nid).docEntry = [] := by
  have hf : ∀ f ∈ articleFields a, ∀ t ∈ matchRuns (jsToLower f.1),
      skippedTok t = true := by
    intro f hfm t ht
    unfold articleAcceptedToks at h
    have h2 := List.flatMap_eq_nil_iff.mp h f hfm
    have h3 := List.filter_eq_nil_iff.mp h2 t ht
    cases hsk : skippedTok t with
    | true => rfl
    | false => exact absurd (by rw [hsk]; rfl) h3
  exact foldFields_skipped (articleFields a) ⟨lex, nid, [], 0⟩ hf

theorem processOneArticle_none {ps : ProcState} {b : Article}
    (hid : jsStr b.id = none) : processOneArticle ps b = ps := by
  unfold processOneArticle
  rw [hid]

theorem processOneArticle_some {ps : ProcState} {b : Article} {docId : Str}
    (hid : jsStr b.id = some docId) :
    processOneArticle ps b =
      if (articleFields b).isEmpty then ps
      else if (tokenizeArticle b ps.lexicon ps.nextId).docEntry.isEmpty then
        { ps with lexicon := (tokenizeArticle b ps.lexicon ps.nextId).lexicon,
                  nextId := (tokenizeArticle b ps.lexicon ps.nextId).nextId }
      else
        ⟨(tokenizeArticle b ps.lexicon ps.nextId).lexicon,
         (tokenizeArticle b ps.lexicon ps.nextId).nextId,
         addPostings ps.newPostingsByBarrel docId
           (tokenizeArticle b ps.lexicon ps.nextId).docEntry,
         jsUpsert ps.newForward docId (tokenizeArticle b ps.lexicon ps.nextId).docEntry,
         ps.processed + 1⟩ := by
  unfold processOneArticle
  rw [hid]

/-- Processing an article with no indexable token leaves the whole processing
state unchanged. -/
theorem processOneArticle_skipped {a : Article} (h : articleAcceptedToks a = [])
    (ps : ProcState) : processOneArticle ps a = ps := by
  cases hid : jsStr a.id with
  | none => exact processOneArticle_none hid
  | some docId =>
      rw [processOneArticle_some hid]
      by_cases hf : (articleFields a).isEmpty
      · rw [if_pos hf]
      · rw [if_neg hf]
        obtain ⟨hl, hn, hd⟩ := tokenizeArticle_skipped h ps.lexicon ps.nextId
        rw [hd, hl, hn]
        rfl

theorem processNewArticles_skip_mid {a : Article} (h : articleAcceptedToks a = [])
    (l1 l2 : List Article) (lex : Lexicon) (nid : Nat) :
    processNewArticles (l1 ++ a :: l2) lex nid = processNewArticles (l1 ++ l2) lex nid := by
  unfold processNewArticles
  rw [List.foldl_append, List.foldl_cons, processOneArticle_skipped h,
    ← List.foldl_append]

theorem processOneArticle_cases (ps : ProcState) (b : Article) :
    ((processOneArticle ps b).newPostingsByBarrel = ps.newPostingsByBarrel ∧
      (processOneArticle ps b).newForward = ps.newForward) ∨
    ∃ docId entry, jsStr b.id = some docId ∧
      (processOneArticle ps b).newPostingsByBarrel =
        addPostings ps.newPostingsByBarrel docId entry ∧
      (processOneArticle ps b).newForward = jsUpsert ps.newForward docId entry := by
  cases hid : jsStr b.id with
  | none => rw [processOneArticle_none hid]; exact Or.inl ⟨rfl, rfl⟩
  | some docId =>
      rw [processOneArticle_some hid]
      by_cases hf : (articleFields b).isEmpty
      · rw [if_pos hf]; exact Or.inl ⟨rfl, rfl⟩
      · rw [if_neg hf]
        by_cases hde : (tokenizeArticle b ps.lexicon ps.nextId).docEntry.isEmpty
        · rw [if_pos hde]; exact Or.inl ⟨rfl, rfl⟩
        · rw [if_neg hde]
          exact Or.inr ⟨docId, (tokenizeArticle b ps.lexicon ps.nextId).docEntry,
            rfl, rfl, rfl⟩

/-- Elements of a looked-up barrel-level map satisfy any property all the
stored maps satisfy. -/
theorem npb_getD_inv {i : Str} {npb : List (Nat × BarrelFile)}
    (hP : ∀ bm ∈ npb, ∀ w ∈ bm.2, i ∉ w.2.map (·.docId)) (idx : Nat)
    {w : Nat × List Posting} (hw : w ∈ (npb.lookup idx).getD []) :
    i ∉ w.2.map (·.docId) := by
  cases hl : npb.lookup idx with
  | none =>
      rw [hl] at hw
      cases hw
  | some bf =>
      rw [hl] at hw
      exact hP (idx, bf) (lookup_mem_pair hl) w hw

theorem bmap_getD_docIds {i : Str} {bMap : BarrelFile}
    (hQ : ∀ w ∈ bMap, i ∉ w.2.map (·.docId)) (k : Nat) :
    i ∉ ((bMap.lookup k).getD []).map (·.docId) := by
  cases hl : bMap.lookup k with
  | none =>
      intro hc
      exact absurd hc (List.not_mem_nil i)
  | some l0 =>
      intro hc
      exact hQ (k, l0) (lookup_mem_pair hl) hc

theorem addPostings_docIds {i : Str} {docId : Str} (hdne : docId ≠ i) :
    ∀ (entry : ForwardEntry) (npb : List (Nat × BarrelFile)),
      (∀ bm ∈ npb, ∀ w ∈ bm.2, i ∉ w.2.map (·.docId)) →
      ∀ bm ∈ addPostings npb docId entry, ∀ w ∈ bm.2, i ∉ w.2.map (·.docId)
  | [], _, hP => hP
  | wh :: entry', npb, hP => by
      unfold addPostings
      rw [List.foldl_cons]
      have hP' : ∀ bm ∈ jsUpsert npb (wh.1 % NUM_BARRELS)
          (jsUpsert ((npb.lookup (wh.1 % NUM_BARRELS)).getD []) wh.1
            (((((npb.lookup (wh.1 % NUM_BARRELS)).getD []).lookup wh.1).getD []) ++
              [⟨docId, wh.2⟩])),
          ∀ w ∈ bm.2, i ∉ w.2.map (·.docId) := by
        intro bm hbm w hw
        rcases mem_jsUpsert_val _ _ _ hbm with h1 | h1
        · exact hP bm h1 w hw
        · subst h1
          rcases mem_jsUpsert_val _ _ _ hw with h2 | h2
          · exact npb_getD_inv hP (wh.1 % NUM_BARRELS) h2
          · subst h2
            rw [List.map_append]
            intro hc
            rcases List.mem_append.mp hc with h3 | h3
            · exact bmap_getD_docIds
                (fun q hq => npb_getD_inv hP (wh.1 % NUM_BARRELS) hq) wh.1 h3
            · have h4 : i = docId := List.mem_singleton.mp h3
              exact hdne h4.symm
      exact addPostings_docIds hdne entry' _ hP'

theorem procFold_inv {i : Str} :
    ∀ (l : List Article) (ps : ProcState),
      (∀ b ∈ l, jsStr b.id ≠ some i) →
      (∀ bm ∈ ps.newPostingsByBarrel, ∀ w ∈ bm.2, i ∉ w.2.map (·.docId)) →
      i ∉ ps.newForward.map (·.1) →
      (∀ bm ∈ (l.foldl processOneArticle ps).newPostingsByBarrel, ∀ w ∈ bm.2,
        i ∉ w.2.map (·.docId)) ∧
      i ∉ (l.foldl processOneArticle ps).newForward.map (·.1)
  | [], _, _, hnpb, hnf => ⟨hnpb, hnf⟩
  | b :: l', ps, h, hnpb, hnf => by
      rw [List.foldl_cons]
      refine procFold_inv l' (processOneArticle ps b)
        (fun c hc => h c (List.mem_cons_of_mem _ hc)) ?_ ?_
      · rcases processOneArticle_cases ps b with ⟨hn1, -⟩ | ⟨docId, entry, hbid, hn1, -⟩
        · rw [hn1]; exact hnpb
        · rw [hn1]
          have hdne : docId ≠ i := fun he =>
            h b (List.mem_cons_self _ _) (by rw [hbid, he])
          exact addPostings_docIds hdne entry _ hnpb
      · rcases processOneArticle_cases ps b with ⟨-, hn2⟩ | ⟨docId, entry, hbid, -, hn2⟩
        · rw [hn2]; exact hnf
        · rw [hn2]
          have hdne : docId ≠ i := fun he =>
            h b (List.mem_cons_self _ _) (by rw [hbid, he])
          intro hc
          rcases (mem_keys_jsUpsert ps.newForward docId i entry).mp hc with h1 | h1
          · exact hdne h1.symm
          · exact hnf h1

theorem mergeInner_docIds {i : Str} :
    ∀ (wps : List (Nat × List Posting)) (ex : BarrelFile),
      (∀ w ∈ ex, i ∉ w.2.map (·.docId)) →
      (∀ wp ∈ wps, i ∉ wp.2.map (·.docId)) →
      ∀ w ∈ wps.foldl
          (fun ex wp => jsUpsert ex wp.1 (((ex.lookup wp.1).getD []) ++ wp.2)) ex,
        i ∉ w.2.map (·.docId)
  | [], _, hex, _ => hex
  | wp :: wps', ex, hex, hwp => by
      rw [List.foldl_cons]
      refine mergeInner_docIds wps' _ ?_ (fun q hq => hwp q (List.mem_cons_of_mem _ hq))
      intro w hw
      rcases mem_jsUpsert_val _ _ _ hw with h1 | h1
      · exact hex w h1
      · subst h1
        rw [List.map_append]
        intro hc
        rcases List.mem_append.mp hc with h2 | h2
        · exact bmap_getD_docIds hex wp.1 h2
        · exact hwp wp (List.mem_cons_self _ _) h2

theorem mergeNewPostings_docIds {i : Str} :
    ∀ (npb : List (Nat × BarrelFile)) (barrels : Barrels),
      (∀ s ∈ barrels, ∀ w ∈ s.2, i ∉ w.2.map (·.docId)) →
      (∀ bm ∈ npb, ∀ w ∈ bm.2, i ∉ w.2.map (·.docId)) →
      ∀ s ∈ mergeNewPostings npb barrels, ∀ w ∈ s.2, i ∉ w.2.map (·.docId)
  | [], _, hb, _ => hb
  | bm :: npb', barrels, hb, hn => by
      unfold mergeNewPostings
      rw [List.foldl_cons]
      have hb' : ∀ s ∈ jsUpsert barrels bm.1
          (bm.2.foldl (fun ex wp => jsUpsert ex wp.1 (((ex.lookup wp.1).getD []) ++ wp.2))
            ((barrels.lookup bm.1).getD [])),
          ∀ w ∈ s.2, i ∉ w.2.map (·.docId) := by
        intro s hs w hw
        rcases mem_jsUpsert_val _ _ _ hs with h1 | h1
        · exact hb s h1 w hw
        · subst h1
          exact mergeInner_docIds bm.2 ((barrels.lookup bm.1).getD [])
            (fun q hq => npb_getD_inv hb bm.1 hq)
            (hn bm (List.mem_cons_self _ _)) w hw
      exact mergeNewPostings_docIds npb' _ hb'
        (fun q hq => hn q (List.mem_cons_of_mem _ hq))

/-- C10 (implicit): a batch article `a` with fresh id `i` whose fields yield
no indexable token (every token is short or a stop word) is still written
into the document store with its metadata record; it gets no forward-index
entry and no barrel posting; it is not counted in `indexedCount` (the count
equals that of the batch without it); and any later resubmission of an
article with id `i` is filtered out as already indexed. -/
theorem c10_unindexable_article (F : FileState) (pre post : List Article)
    (a : Article) (i : Str)
    (hid : jsStr a.id = some i)
    (hnew : i ∉ F.docStore.map (·.1))
    (htoks : articleAcceptedToks a = [])
    (huniq : ∀ b ∈ pre ++ post, jsStr b.id ≠ some i)
    (hFI : i ∉ F.forwardIndex.map (·.1))
    (hbar : ∀ s ∈ F.barrels, ∀ w ∈ s.2, i ∉ w.2.map (·.docId)) :
    ((runIndexingJob (pre ++ a :: post) F).2.docStore.lookup i = some (mkRecord a)) ∧
    (i ∉ (runIndexingJob (pre ++ a :: post) F).2.forwardIndex.map (·.1)) ∧
    (∀ s ∈ (runIndexingJob (pre ++ a :: post) F).2.barrels, ∀ w ∈ s.2,
      i ∉ w.2.map (·.docId)) ∧
    ((runIndexingJob (pre ++ a :: post) F).1 =
      .ok (processNewArticles (articlesToProcessOf (pre ++ post) F.docStore)
            F.lexicon (findNextWordId F.lexicon)).processed
        "Successfully indexed documents.".toList) ∧
    (∀ b : Article, jsStr b.id = some i →
      newDocPred (runIndexingJob (pre ++ a :: post) F).2.docStore b = false) := by
  have hpred : newDocPred F.docStore a = true := by
    rw [newDocPred_some hid]
    have hc : (F.docStore.map (·.1)).contains i = false := by
      cases hcv : (F.docStore.map (·.1)).contains i with
      | false => rfl
      | true => exact absurd (List.mem_of_elem_eq_true hcv) hnew
    rw [hc]
    rfl
  have htp : articlesToProcessOf (pre ++ a :: post) F.docStore =
      articlesToProcessOf pre F.docStore ++ a :: articlesToProcessOf post F.docStore := by
    unfold articlesToProcessOf
    rw [List.filter_append, List.filter_cons_of_pos hpred]
  have htp12 : ∀ b ∈ articlesToProcessOf pre F.docStore ++
      articlesToProcessOf post F.docStore, jsStr b.id ≠ some i := by
    intro b hb
    rcases List.mem_append.mp hb with h1 | h1
    · exact huniq b (List.mem_append.mpr (Or.inl (List.mem_filter.mp h1).1))
    · exact huniq b (List.mem_append.mpr (Or.inr (List.mem_filter.mp h1).1))
  have htp2 : ∀ b ∈ articlesToProcessOf post F.docStore, jsStr b.id ≠ some i :=
    fun b hb => htp12 b (List.mem_append.mpr (Or.inr hb))
  have hne : ¬ ((articlesToProcessOf (pre ++ a :: post) F.docStore).isEmpty = true) := by
    rw [htp]
    cases articlesToProcessOf pre F.docStore <;> simp
  have hps2 : processNewArticles (articlesToProcessOf (pre ++ a :: post) F.docStore)
      F.lexicon (findNextWordId F.lexicon) =
      processNewArticles (articlesToProcessOf pre F.docStore ++
        articlesToProcessOf post F.docStore) F.lexicon (findNextWordId F.lexicon) := by
    rw [htp]
    exact processNewArticles_skip_mid htoks _ _ _ _
  have hds : (runIndexingJob (pre ++ a :: post) F).2.docStore =
      updateDocStore (articlesToProcessOf (pre ++ a :: post) F.docStore) F.docStore := by
    simp [runIndexingJob, hne]
  have hfi : (runIndexingJob (pre ++ a :: post) F).2.forwardIndex =
      jsMerge F.forwardIndex
        (processNewArticles (articlesToProcessOf (pre ++ a :: post) F.docStore)
          F.lexicon (findNextWordId F.lexicon)).newForward := by
    simp [runIndexingJob, hne]
  have hbarr : (runIndexingJob (pre ++ a :: post) F).2.barrels =
      mergeNewPostings
        (processNewArticles (articlesToProcessOf (pre ++ a :: post) F.docStore)
          F.lexicon (findNextWordId F.lexicon)).newPostingsByBarrel F.barrels := by
    simp [runIndexingJob, hne]
  have hres : (runIndexingJob (pre ++ a :: post) F).1 =
      .ok (processNewArticles (articlesToProcessOf (pre ++ a :: post) F.docStore)
            F.lexicon (findNextWordId F.lexicon)).processed
        "Successfully indexed documents.".toList := by
    simp [runIndexingJob, hne]
  have hinv := procFold_inv (articlesToProcessOf pre F.docStore ++
      articlesToProcessOf post F.docStore)
    ⟨F.lexicon, findNextWordId F.lexicon, [], [], 0⟩ htp12
    (fun bm hbm => absurd hbm (List.not_mem_nil bm)) (List.not_mem_nil i)
  have hC1 : (runIndexingJob (pre ++ a :: post) F).2.docStore.lookup i =
      some (mkRecord a) := by
    rw [hds]
    have hmeta : ((articlesToProcessOf (pre ++ a :: post) F.docStore).foldl
        metaStep []).lookup i = some (mkRecord a) := by
      rw [htp, List.foldl_append, List.foldl_cons]
      apply metaFold_lookup _ htp2
      rw [metaStep_some hid, lookup_jsUpsert, beq_self_eq_true, if_pos rfl]
    have hnodup : (((articlesToProcessOf (pre ++ a :: post) F.docStore).foldl
        metaStep []).map (·.1)).Nodup :=
      keys_metaFold_nodup _ [] List.nodup_nil
    exact lookup_jsMerge_right F.docStore hnodup hmeta
  refine ⟨hC1, ?_, ?_, ?_, ?_⟩
  · rw [hfi]
    intro hc
    rcases mem_keys_jsMerge_cases F.forwardIndex hc with h1 | h1
    · exact hFI h1
    · rw [hps2] at h1
      exact hinv.2 h1
  · rw [hbarr]
    rw [hps2]
    exact mergeNewPostings_docIds _ F.barrels hbar hinv.1
  · rw [hres, hps2]
    have htpp : articlesToProcessOf (pre ++ post) F.docStore =
        articlesToProcessOf pre F.docStore ++ articlesToProcessOf post F.docStore := by
      unfold articlesToProcessOf
      rw [List.filter_append]
    rw [htpp]
  · intro b hbid
    rw [newDocPred_some hbid]
    have hmem : i ∈ (runIndexingJob (pre ++ a :: post) F).2.docStore.map (·.1) :=
      mem_keys_of_lookup_eq_some hC1
    have hc : ((runIndexingJob (pre ++ a :: post) F).2.docStore.map (·.1)).contains i
        = true := List.elem_eq_true_of_mem hmem
    rw [hc]
    rfl

/-- Witness for C10: a one-article batch whose only text is the stop word
`the`, submitted against empty files. -/
theorem c10_unindexable_article_witness :
    ((runIndexingJob ([] ++ artStop :: []) emptyFiles).2.docStore.lookup "x1".toList =
      some (mkRecord artStop)) ∧
    ("x1".toList ∉ (runIndexingJob ([] ++ artStop :: []) emptyFiles).2.forwardIndex.map
      (·.1)) ∧
    (∀ s ∈ (runIndexingJob ([] ++ artStop :: []) emptyFiles).2.barrels, ∀ w ∈ s.2,
      "x1".toList ∉ w.2.map (·.docId)) ∧
    ((runIndexingJob ([] ++ artStop :: []) emptyFiles).1 =
      .ok (processNewArticles (articlesToProcessOf ([] ++ []) emptyFiles.docStore)
            emptyFiles.lexicon (findNextWordId emptyFiles.lexicon)).processed
        "Successfully indexed documents.".toList) ∧
    (∀ b : Article, jsStr b.id = some "x1".toList →
      newDocPred (runIndexingJob ([] ++ artStop :: []) emptyFiles).2.docStore b = false) :=
  c10_unindexable_article emptyFiles [] [] artStop "x1".toList rfl
    (List.not_mem_nil _) rfl (fun b hb => absurd hb (List.not_mem_nil b))
    (List.not_mem_nil _) (fun s hs => absurd hs (List.not_mem_nil s))

/-! ## C7: trie autocomplete -/

theorem lookup_eq_of_mem_nodup {K V : Type} [BEq K] [LawfulBEq K] :
    ∀ {m : List (K × V)} {k : K} {v : V},
      ((m.map (·.1)).Nodup) → (k, v) ∈ m → m.lookup k = some v
  | [], _, _, _, h => absurd h (List.not_mem_nil _)
  | (k0, v0) :: rest, k, v, hnd, h => by
      rw [List.map_cons, List.nodup_cons] at hnd
      rw [List.lookup_cons]
      rcases List.mem_cons.mp h with h1 | h1
      · rw [Prod.mk.injEq] at h1
        obtain ⟨hk, hv⟩ := h1
        subst hk
        subst hv
        rw [beq_self_eq_true]
      · have hk : (k == k0) = false := by
          rcases Bool.eq_false_or_eq_true (k == k0) with ht | hf
          · exfalso
            apply hnd.1
            rw [← eq_of_beq ht]
            exact List.mem_map.mpr ⟨(k, v), h1, rfl⟩
          · exact hf
        rw [hk]
        exact lookup_eq_of_mem_nodup hnd.2 h1

theorem take_append_take {α : Type} (l r : List α) (n : Nat) :
    (l.take n ++ r).take n = (l ++ r).take n := by
  by_cases h : n ≤ l.length
  · rw [List.take_append_of_le_length h,
      List.take_append_of_le_length (by rw [List.length_take]; omega),
      List.take_take, Nat.min_self]
  · have h2 : l.take n = l := List.take_of_length_le (by omega)
    rw [h2]

theorem append_lt_append_left {s1 s2 : Str} (h : s1 < s2) :
    ∀ (p : Str), p ++ s1 < p ++ s2
  | [] => h
  | c :: p' => by
      have hrec : p' ++ s1 < p' ++ s2 := append_lt_append_left h p'
      show List.Lex (· < ·) (c :: (p' ++ s1)) (c :: (p' ++ s2))
      exact List.Lex.cons hrec

theorem nodup_dedupFirstAux {α : Type} [DecidableEq α] :
    ∀ (l seen : List α), (dedupFirstAux seen l).Nodup
  | [], _ => by simp [dedupFirstAux]
  | a :: l, seen => by
      unfold dedupFirstAux
      by_cases h : a ∈ seen
      · rw [if_pos h]
        exact nodup_dedupFirstAux l seen
      · rw [if_neg h]
        rw [List.nodup_cons]
        refine ⟨?_, nodup_dedupFirstAux l (a :: seen)⟩
        intro hcon
        exact (mem_dedupFirstAux.mp hcon).2 (List.mem_cons_self _ _)

theorem nodup_dedupFirst {α : Type} [DecidableEq α] (l : List α) :
    (dedupFirst l).Nodup := nodup_dedupFirstAux l []

theorem TrieWF_emptyNode : TrieWF emptyNode :=
  .mk [] false List.nodup_nil (fun p hp => absurd hp (List.not_mem_nil p))

theorem containsWord_emptyNode : ∀ (s : Str), emptyNode.containsWord s = false
  | [] => rfl
  | _ :: _ => rfl

theorem TrieWF_parts {t : TrieNode} (h : TrieWF t) :
    ((t.children.map (·.1)).Nodup) ∧ ∀ p ∈ t.children, TrieWF p.2 := by
  cases h with
  | mk ch e hn hc => exact ⟨hn, hc⟩

theorem TrieWF_insert : ∀ {t : TrieNode}, TrieWF t → ∀ (w : Str), TrieWF (t.insert w)
  | .mk ch _, h, [] => by
      obtain ⟨hn, hc⟩ := TrieWF_parts h
      exact .mk ch true hn hc
  | .mk ch e, h, c :: cs => by
      obtain ⟨hn, hc⟩ := TrieWF_parts h
      refine .mk _ e (keys_jsUpsert_nodup hn c _) ?_
      intro p hp
      rcases mem_jsUpsert_val _ _ _ hp with h1 | h1
      · exact hc p h1
      · subst h1
        show TrieWF (((ch.lookup c).getD emptyNode).insert cs)
        cases hl : ch.lookup c with
        | none => exact TrieWF_insert TrieWF_emptyNode cs
        | some t' => exact TrieWF_insert (hc (c, t') (lookup_mem_pair hl)) cs

theorem containsWord_nil (t : TrieNode) : t.containsWord [] = t.isEnd := rfl

theorem searchNode_cons (t : TrieNode) (c : Char) (cs : Str) :
    t.searchNode (c :: cs) =
      match t.children.lookup c with
      | none => none
      | some t' => t'.searchNode cs := rfl

theorem containsWord_cons_none {t : TrieNode} {c : Char} {cs : Str}
    (hl : t.children.lookup c = none) : t.containsWord (c :: cs) = false := by
  unfold TrieNode.containsWord
  rw [searchNode_cons, hl]

theorem containsWord_cons_some {t t' : TrieNode} {c : Char} {cs : Str}
    (hl : t.children.lookup c = some t') :
    t.containsWord (c :: cs) = t'.containsWord cs := by
  unfold TrieNode.containsWord
  rw [searchNode_cons, hl]

theorem containsWord_insert :
    ∀ (t : TrieNode) (w v : Str),
      ((t.insert w).containsWord v = true) ↔ (v = w ∨ t.containsWord v = true)
  | .mk ch e, [], [] => by
      constructor
      · intro _
        exact Or.inl rfl
      · intro _
        rfl
  | .mk ch e, [], d :: ds => by
      have hsame : ((TrieNode.mk ch e).insert []).containsWord (d :: ds) =
          (TrieNode.mk ch e).containsWord (d :: ds) := by
        show (TrieNode.mk ch true).containsWord (d :: ds) =
          (TrieNode.mk ch e).containsWord (d :: ds)
        cases hl : ch.lookup d with
        | none =>
            rw [containsWord_cons_none (t := TrieNode.mk ch true) hl,
              containsWord_cons_none (t := TrieNode.mk ch e) hl]
        | some t' =>
            rw [containsWord_cons_some (t := TrieNode.mk ch true) hl,
              containsWord_cons_some (t := TrieNode.mk ch e) hl]
      rw [hsame]
      constructor
      · intro h
        exact Or.inr h
      · intro h
        rcases h with h | h
        · cases h
        · exact h
  | .mk ch e, c :: cs, [] => by
      rw [containsWord_nil, containsWord_nil]
      constructor
      · intro h
        exact Or.inr h
      · intro h
        rcases h with h | h
        · cases h
        · exact h
  | .mk ch e, c :: cs, d :: ds => by
      have hup : ((TrieNode.mk ch e).insert (c :: cs)).children =
          jsUpsert ch c (((ch.lookup c).getD emptyNode).insert cs) := rfl
      cases hb : d == c with
      | true =>
          have hdc : d = c := eq_of_beq hb
          subst hdc
          have hlk : ((TrieNode.mk ch e).insert (d :: cs)).children.lookup d =
              some (((ch.lookup d).getD emptyNode).insert cs) := by
            rw [hup, lookup_jsUpsert, beq_self_eq_true, if_pos rfl]
          rw [containsWord_cons_some hlk]
          rw [containsWord_insert (((ch.lookup d).getD emptyNode)) cs ds]
          constructor
          · intro h
            rcases h with h | h
            · exact Or.inl (by rw [h])
            · cases hl : ch.lookup d with
              | none =>
                  rw [hl] at h
                  have h2 : emptyNode.containsWord ds = true := h
                  rw [containsWord_emptyNode ds] at h2
                  cases h2
              | some t' =>
                  rw [hl] at h
                  refine Or.inr ?_
                  rw [containsWord_cons_some (t := TrieNode.mk ch e) hl]
                  exact h
          · intro h
            rcases h with h | h
            · rw [List.cons.injEq] at h
              exact Or.inl h.2
            · cases hl : ch.lookup d with
              | none =>
                  rw [containsWord_cons_none (t := TrieNode.mk ch e) hl] at h
                  cases h
              | some t' =>
                  rw [containsWord_cons_some (t := TrieNode.mk ch e) hl] at h
                  exact Or.inr h
      | false =>
          have hlk : ((TrieNode.mk ch e).insert (c :: cs)).children.lookup d =
              ch.lookup d := by
            rw [hup, lookup_jsUpsert, hb, if_neg (by decide)]
          have hdc : d ≠ c := by
            intro he
            rw [he, beq_self_eq_true] at hb
            cases hb
          have hsame : ((TrieNode.mk ch e).insert (c :: cs)).containsWord (d :: ds) =
              (TrieNode.mk ch e).containsWord (d :: ds) := by
            cases hl : ch.lookup d with
            | none =>
                rw [containsWord_cons_none (hl.symm ▸ hlk : _ = none),
                  containsWord_cons_none (t := TrieNode.mk ch e) hl]
            | some t' =>
                rw [containsWord_cons_some (hl.symm ▸ hlk : _ = some t'),
                  containsWord_cons_some (t := TrieNode.mk ch e) hl]
          rw [hsame]
          constructor
          · intro h
            exact Or.inr h
          · intro h
            rcases h with h | h
            · rw [List.cons.injEq] at h
              exact absurd h.1 hdc
            · exact h

theorem TrieWF_foldl_insert :
    ∀ (ws : List Str) (t : TrieNode), TrieWF t →
      TrieWF (ws.foldl (fun t w => t.insert w) t)
  | [], _, h => h
  | w :: ws, t, h => by
      rw [List.foldl_cons]
      exact TrieWF_foldl_insert ws _ (TrieWF_insert h w)

theorem TrieWF_buildTrie (words : List Str) : TrieWF (buildTrie words) :=
  TrieWF_foldl_insert words emptyNode TrieWF_emptyNode

theorem containsWord_foldl_insert :
    ∀ (ws : List Str) (t : TrieNode) (v : Str),
      ((ws.foldl (fun t w => t.insert w) t).containsWord v = true) ↔
        (v ∈ ws ∨ t.containsWord v = true)
  | [], _, v => ⟨fun h => Or.inr h, fun h => h.resolve_left (List.not_mem_nil v)⟩
  | w :: ws, t, v => by
      rw [List.foldl_cons]
      rw [containsWord_foldl_insert ws _ v, containsWord_insert t w v]
      constructor
      · rintro (h | h | h)
        · exact Or.inl (List.mem_cons_of_mem _ h)
        · exact Or.inl (by rw [h]; exact List.mem_cons_self _ _)
        · exact Or.inr h
      · rintro (h | h)
        · rcases List.mem_cons.mp h with h1 | h1
          · exact Or.inr (Or.inl h1)
          · exact Or.inl h1
        · exact Or.inr (Or.inr h)

/-- The trie built from a word list stores exactly those words. -/
theorem containsWord_buildTrie (words : List Str) (v : Str) :
    ((buildTrie words).containsWord v = true) ↔ v ∈ words := by
  unfold buildTrie
  rw [containsWord_foldl_insert words emptyNode v, containsWord_emptyNode]
  simp

theorem searchNode_append :
    ∀ (p : Str) (t : TrieNode) (s : Str),
      t.searchNode (p ++ s) =
        match t.searchNode p with
        | none => none
        | some n => n.searchNode s
  | [], _, _ => rfl
  | c :: p', t, s => by
      rw [List.cons_append, searchNode_cons, searchNode_cons]
      cases hl : t.children.lookup c with
      | none => rfl
      | some t' => exact searchNode_append p' t' s

theorem TrieWF_searchNode :
    ∀ (p : Str) {t n : TrieNode}, TrieWF t → t.searchNode p = some n → TrieWF n
  | [], t, n, h, hs => by
      have h2 : some t = some n := hs
      rw [Option.some.injEq] at h2
      exact h2 ▸ h
  | c :: p', t, n, h, hs => by
      obtain ⟨-, hc⟩ := TrieWF_parts h
      rw [searchNode_cons] at hs
      cases hl : t.children.lookup c with
      | none =>
          rw [hl] at hs
          exact Option.noConfusion hs
      | some t' =>
          rw [hl] at hs
          exact TrieWF_searchNode p' (hc (c, t') (lookup_mem_pair hl)) hs

theorem map_append_comp (pfx : Str) (c : Char) (l : List Str) :
    (l.map (fun s => c :: s)).map (fun s => pfx ++ s) =
      l.map (fun s => (pfx ++ [c]) ++ s) := by
  rw [List.map_map]
  apply List.map_congr_left
  intro s _
  show pfx ++ (c :: s) = pfx ++ [c] ++ s
  rw [List.append_assoc]
  rfl

theorem enumT_map_pfx (t : TrieNode) (pfx : Str) :
    (enumT t).map (fun s => pfx ++ s) =
      (if t.isEnd then [pfx] else []) ++
      (sortChildren t.children).attach.flatMap
        (fun cp => (enumT cp.1.2).map (fun s => (pfx ++ [cp.1.1]) ++ s)) := by
  rw [enumT]
  rw [List.map_append]
  congr 1
  · cases t.isEnd <;> simp
  · rw [List.map_flatMap]
    induction (sortChildren t.children).attach with
    | nil => rfl
    | cons cp L ih =>
        rw [List.flatMap_cons, List.flatMap_cons, ih]
        congr 1
        exact map_append_comp pfx cp.1.1 (enumT cp.1.2)

theorem foldCollect_eq (limit : Nat) (pfx : Str) (ch : List (Char × TrieNode))
    (hch : ∀ cp : Char × TrieNode, cp ∈ sortChildren ch → ∀ (p2 : Str) (b : List Str),
      b.length ≤ limit →
      collectWords cp.2 p2 b limit = (b ++ (enumT cp.2).map (fun s => p2 ++ s)).take limit) :
    ∀ (L : List {x // x ∈ sortChildren ch}) (b : List Str), b.length ≤ limit →
      L.foldl (fun a cp => collectWords cp.1.2 (pfx ++ [cp.1.1]) a limit) b =
        (b ++ L.flatMap
          (fun cp => (enumT cp.1.2).map (fun s => (pfx ++ [cp.1.1]) ++ s))).take limit
  | [], b, hb => by
      rw [List.foldl_nil, List.flatMap_nil, List.append_nil]
      exact (List.take_of_length_le hb).symm
  | cp :: L, b, hb => by
      rw [List.foldl_cons, List.flatMap_cons]
      rw [hch cp.1 cp.2 (pfx ++ [cp.1.1]) b hb]
      have hb' : ((b ++ (enumT cp.1.2).map (fun s => (pfx ++ [cp.1.1]) ++ s)).take
          limit).length ≤ limit := by
        rw [List.length_take]
        exact min_le_left _ _
      rw [foldCollect_eq limit pfx ch hch L _ hb']
      rw [take_append_take]
      rw [← List.append_assoc]

/-- `collectWords` collects, up to the limit, the node's words in canonical
depth-first sorted order, appended to the accumulator. -/
theorem collectWords_eq (t : TrieNode) (pfx : Str) (acc : List Str) (limit : Nat)
    (h : acc.length ≤ limit) :
    collectWords t pfx acc limit =
      (acc ++ (enumT t).map (fun s => pfx ++ s)).take limit := by
  rw [collectWords]
  by_cases hle : limit ≤ acc.length
  · rw [if_pos hle]
    have hacc : acc.length = limit := le_antisymm h hle
    rw [← hacc, List.take_left]
  · rw [if_neg hle]
    have hacc1 : (if t.isEnd then acc ++ [pfx] else acc).length ≤ limit := by
      cases t.isEnd <;> simp <;> omega
    have hch : ∀ cp : Char × TrieNode, cp ∈ sortChildren t.children →
        ∀ (p2 : Str) (b : List Str), b.length ≤ limit →
        collectWords cp.2 p2 b limit =
          (b ++ (enumT cp.2).map (fun s => p2 ++ s)).take limit := by
      intro cp hcp p2 b hb
      exact collectWords_eq cp.2 p2 b limit hb
    have hone : (if t.isEnd then acc ++ [pfx] else acc) =
        acc ++ (if t.isEnd then [pfx] else []) := by
      cases t.isEnd <;> simp
    rw [foldCollect_eq limit pfx t.children hch (sortChildren t.children).attach _ hacc1,
      hone, enumT_map_pfx, ← List.append_assoc]
termination_by sizeOf t
decreasing_by
  cases t with
  | mk ch e => exact sizeOf_lt_of_mem_sortChildren hcp

/-- Membership in the canonical enumeration is trie membership. -/
theorem mem_enumT (t : TrieNode) (hWF : TrieWF t) : ∀ (s : Str),
    s ∈ enumT t ↔ t.containsWord s = true := by
  obtain ⟨hn, hc⟩ := TrieWF_parts hWF
  intro s
  rw [enumT]
  cases s with
  | nil =>
      rw [containsWord_nil]
      constructor
      · intro h
        rcases List.mem_append.mp h with h1 | h1
        · by_cases he : t.isEnd
          · exact he
          · rw [if_neg he] at h1
            exact absurd h1 (List.not_mem_nil _)
        · obtain ⟨cp, hcp, h2⟩ := List.mem_flatMap.mp h1
          obtain ⟨s', hs', he⟩ := List.mem_map.mp h2
          exact absurd he (by simp)
      · intro h
        apply List.mem_append.mpr
        apply Or.inl
        rw [if_pos h]
        exact List.mem_singleton.mpr rfl
  | cons c cs =>
      constructor
      · intro h
        rcases List.mem_append.mp h with h1 | h1
        · by_cases he : t.isEnd
          · rw [if_pos he] at h1
            have h2 := List.mem_singleton.mp h1
            cases h2
          · rw [if_neg he] at h1
            exact absurd h1 (List.not_mem_nil _)
        · obtain ⟨cp, hcp, h2⟩ := List.mem_flatMap.mp h1
          obtain ⟨s', hs', he⟩ := List.mem_map.mp h2
          have hmemc : cp.1 ∈ t.children := (List.mem_insertionSort childKeyRel).mp cp.2
          have hlk : t.children.lookup cp.1.1 = some cp.1.2 :=
            lookup_eq_of_mem_nodup hn hmemc
          injection he with he1 he2
          rw [← he1, ← he2]
          rw [containsWord_cons_some hlk]
          exact (mem_enumT cp.1.2 (hc cp.1 hmemc) s').mp hs'
      · intro h
        cases hl : t.children.lookup c with
        | none =>
            rw [containsWord_cons_none hl] at h
            cases h
        | some t' =>
            rw [containsWord_cons_some hl] at h
            have hmem : (c, t') ∈ t.children := lookup_mem_pair hl
            have hmem2 : (c, t') ∈ sortChildren t.children :=
              (List.mem_insertionSort childKeyRel).mpr hmem
            apply List.mem_append.mpr
            apply Or.inr
            apply List.mem_flatMap.mpr
            refine ⟨⟨(c, t'), hmem2⟩, List.mem_attach _ _, ?_⟩
            exact List.mem_map.mpr ⟨cs, (mem_enumT t' (hc (c, t') hmem) cs).mpr h, rfl⟩
termination_by sizeOf t
decreasing_by
  · obtain ⟨⟨cc, tt⟩, hm⟩ := cp
    cases t with
    | mk ch e => exact sizeOf_lt_of_mem_sortChildren hm
  · cases t with
    | mk ch e => exact sizeOf_lt_of_mem_sortChildren hmem2

theorem sortChildren_keys_strict {ch : List (Char × TrieNode)}
    (hn : (ch.map (·.1)).Nodup) :
    (sortChildren ch).Pairwise (fun a b => a.1 < b.1) := by
  have hs : (sortChildren ch).Pairwise childKeyRel :=
    List.sorted_insertionSort childKeyRel ch
  have hperm : List.Perm (sortChildren ch) ch := List.perm_insertionSort childKeyRel ch
  have hn2 : ((sortChildren ch).map (·.1)).Nodup :=
    ((hperm.map (·.1)).nodup_iff).mpr hn
  have hn3 : ((sortChildren ch).map (·.1)).Pairwise (· ≠ ·) := hn2
  have hne : (sortChildren ch).Pairwise (fun a b => a.1 ≠ b.1) :=
    List.pairwise_map.mp hn3
  exact (hs.and hne).imp (fun h => lt_of_le_of_ne h.1 h.2)

/-- The canonical enumeration of a well-formed trie node is strictly sorted
in lexicographic order. -/
theorem enumT_sorted (t : TrieNode) (hWF : TrieWF t) :
    List.Sorted (· < ·) (enumT t) := by
  obtain ⟨hn, hc⟩ := TrieWF_parts hWF
  rw [enumT]
  apply List.pairwise_append.mpr
  have hkeys := sortChildren_keys_strict hn
  have hkeys2 : (sortChildren t.children).attach.Pairwise
      (fun a b => a.1.1 < b.1.1) := by
    have h0 : ((sortChildren t.children).attach.map Subtype.val).Pairwise
        (fun a b => a.1 < b.1) := by
      rw [List.attach_map_subtype_val]
      exact hkeys
    exact (List.pairwise_map (R := fun a b : Char × TrieNode => a.1 < b.1)).mp h0
  have hflat : ∀ (L : List {x // x ∈ sortChildren t.children}),
      L.Pairwise (fun a b => a.1.1 < b.1.1) →
      List.Sorted (· < ·)
        (L.flatMap (fun cp => (enumT cp.1.2).map (fun s => cp.1.1 :: s))) := by
    intro L
    induction L with
    | nil => intro _; exact List.Pairwise.nil
    | cons cp L ih =>
        intro hp
        rw [List.flatMap_cons]
        apply List.pairwise_append.mpr
        obtain ⟨hhead, htail⟩ := List.pairwise_cons.mp hp
        refine ⟨?_, ih htail, ?_⟩
        · have hsc : List.Sorted (· < ·) (enumT cp.1.2) :=
            enumT_sorted cp.1.2 (hc cp.1 ((List.mem_insertionSort childKeyRel).mp cp.2))
          exact List.pairwise_map.mpr (hsc.imp (fun h => List.Lex.cons h))
        · intro x hx y hy
          obtain ⟨s1, hs1, hx1⟩ := List.mem_map.mp hx
          obtain ⟨cq, hcq, hy0⟩ := List.mem_flatMap.mp hy
          obtain ⟨s2, hs2, hy1⟩ := List.mem_map.mp hy0
          rw [← hx1, ← hy1]
          exact List.Lex.rel (hhead cq hcq)
  refine ⟨?_, hflat _ hkeys2, ?_⟩
  · cases t.isEnd <;> simp
  · intro x hx y hy
    have hx0 : x = [] := by
      by_cases he : t.isEnd
      · rw [if_pos he] at hx
        exact List.mem_singleton.mp hx
      · rw [if_neg he] at hx
        exact absurd hx (List.not_mem_nil x)
    obtain ⟨cq, hcq, hy0⟩ := List.mem_flatMap.mp hy
    obtain ⟨s2, hs2, hy1⟩ := List.mem_map.mp hy0
    rw [hx0, ← hy1]
    exact List.Lex.nil
termination_by sizeOf t
decreasing_by
  obtain ⟨⟨cc, tt⟩, hm⟩ := cp
  cases t with
  | mk ch e => exact sizeOf_lt_of_mem_sortChildren hm

/-- The trie's `autocomplete` returns exactly the first `limit` of the
lexicographically sorted distinct stored words extending the prefix. -/
theorem autocompleteT_eq (words : List Str) (pfx : Str) (limit : Nat) :
    (buildTrie words).autocompleteT pfx limit = (specSortedMatches words pfx).take limit := by
  unfold TrieNode.autocompleteT
  cases hsn : (buildTrie words).searchNode pfx with
  | none =>
      have hfil : words.filter (fun w => pfx.isPrefixOf w) = [] := by
        rw [List.filter_eq_nil_iff]
        intro w hw hpw
        obtain ⟨s, hs⟩ := List.isPrefixOf_iff_prefix.mp hpw
        have hcw : (buildTrie words).containsWord w = true :=
          (containsWord_buildTrie words w).mpr hw
        rw [← hs] at hcw
        unfold TrieNode.containsWord at hcw
        rw [searchNode_append, hsn] at hcw
        cases hcw
      unfold specSortedMatches
      rw [hfil]
      have h0 : (dedupFirst ([] : List Str)).insertionSort (· ≤ ·) = [] := rfl
      rw [h0, List.take_nil]
  | some n =>
      show collectWords n pfx [] limit = (specSortedMatches words pfx).take limit
      rw [collectWords_eq n pfx [] limit (by simp), List.nil_append]
      have hWFn : TrieWF n := TrieWF_searchNode pfx (TrieWF_buildTrie words) hsn
      have hsortn := enumT_sorted n hWFn
      have hmapsorted : List.Sorted (· < ·) ((enumT n).map (fun s => pfx ++ s)) :=
        List.pairwise_map.mpr (hsortn.imp (fun h => append_lt_append_left h pfx))
      have hnd1 : ((enumT n).map (fun s => pfx ++ s)).Nodup := hmapsorted.imp ne_of_lt
      have hnd2 : (specSortedMatches words pfx).Nodup := by
        unfold specSortedMatches
        exact ((List.perm_insertionSort _ _).nodup_iff).mpr (nodup_dedupFirst _)
      have hext : ∀ x, x ∈ (enumT n).map (fun s => pfx ++ s) ↔
          x ∈ specSortedMatches words pfx := by
        intro x
        constructor
        · intro hx
          obtain ⟨s, hs, hxe⟩ := List.mem_map.mp hx
          have hcs : n.containsWord s = true := (mem_enumT n hWFn s).mp hs
          have hcw : (buildTrie words).containsWord (pfx ++ s) = true := by
            unfold TrieNode.containsWord
            rw [searchNode_append, hsn]
            exact hcs
          unfold specSortedMatches
          apply (List.mem_insertionSort _).mpr
          apply mem_dedupFirst.mpr
          apply List.mem_filter.mpr
          rw [← hxe]
          exact ⟨(containsWord_buildTrie words (pfx ++ s)).mp hcw,
            List.isPrefixOf_iff_prefix.mpr ⟨s, rfl⟩⟩
        · intro hx
          unfold specSortedMatches at hx
          have hx2 := (List.mem_insertionSort _).mp hx
          have hx3 := mem_dedupFirst.mp hx2
          have hx4 := List.mem_filter.mp hx3
          obtain ⟨s, hs⟩ := List.isPrefixOf_iff_prefix.mp hx4.2
          have hcw : (buildTrie words).containsWord x = true :=
            (containsWord_buildTrie words x).mpr hx4.1
          rw [← hs] at hcw ⊢
          unfold TrieNode.containsWord at hcw
          rw [searchNode_append, hsn] at hcw
          have hcs : n.containsWord s = true := hcw
          exact List.mem_map.mpr ⟨s, (mem_enumT n hWFn s).mpr hcs, rfl⟩
      have hkey : (enumT n).map (fun s => pfx ++ s) = specSortedMatches words pfx := by
        apply List.eq_of_perm_of_sorted (r := fun a b : Str => a ≤ b)
          ((List.perm_ext_iff_of_nodup hnd1 hnd2).mpr hext)
        · exact hmapsorted.imp le_of_lt
        · unfold specSortedMatches
          exact List.sorted_insertionSort _ _
      rw [hkey]

/-- C7: the engine's `autocomplete(q)` lowercases `q`, splits at the last
space into `base` and `prefix`; an empty prefix yields `[]`, otherwise the
result is `base ++ w` for the first `MAX_AUTOCOMPLETE_SUGGESTIONS` (10)
distinct lexicon tokens extending `prefix`, in lexicographic order, with
tokens shorter than `MIN_TOKEN_LENGTH` (3) filtered out after the cut. -/
theorem c7_autocomplete (voc : Lexicon) (q : Str) :
    engineAutocomplete voc q =
      if (splitLastSpace (jsToLower q)).2.isEmpty then []
      else
        (((specSortedMatches (voc.map (·.1)) (splitLastSpace (jsToLower q)).2).take
            MAX_AUTOCOMPLETE_SUGGESTIONS).filter
          (fun w => decide (MIN_TOKEN_LENGTH ≤ w.length))).map
          (fun s => (splitLastSpace (jsToLower q)).1 ++ s) := by
  simp only [engineAutocomplete]
  by_cases h : (splitLastSpace (jsToLower q)).2.isEmpty
  · rw [if_pos h, if_pos h]
  · rw [if_neg h, if_neg h, autocompleteT_eq]

end SE
